import Mathlib

/-!
Verification of the migen FIFO library (`migen/genlib/fifo.py`) and the
wishbone-to-CSR bridge (`migen/bus/wishbone2csr.py`).

The hardware is shallowly embedded: every migen module becomes a state
structure (one field per register, plus the storage array as a `List Nat`),
its combinational outputs become plain functions of the state, and one clock
tick becomes a `step` function from state and inputs to the next state.
Data values travel through the FIFOs untouched, so elements are modelled as
plain `Nat` (the datapath never truncates: `din` feeds the memory write port
and `dout` reads the memory directly).
-/

namespace Migen

/-- One tick's worth of inputs to a synchronous FIFO: the data word and the
`we`/`re`/`flush` control signals. -/
structure FifoInput where
  din : Nat
  we : Bool
  re : Bool
  flush : Bool
deriving DecidableEq, Repr

/-- Reads `len` consecutive slots of the ring buffer `mem`, starting at index
`start`, wrapping modulo `mem.length`.  This is the abstraction used to state
what a produce/consume pointer pair means. -/
def ringSlice (mem : List Nat) (start len : Nat) : List Nat :=
  (List.range len).map (fun i => mem.getD ((start + i) % mem.length) 0)

/-- Fuel-driven bit count: `bitsForAux (n+1) n` is migen's `bits_for(n)`,
the number of bits needed to represent `n` (the fuel argument only makes the
recursion structural, so that the kernel can evaluate it). -/
def bitsForAux : Nat → Nat → Nat
  | 0, _ => 0
  | fuel + 1, n => if n = 0 then 0 else bitsForAux fuel (n / 2) + 1

/-- migen's `bits_for(n)`. -/
def bitsFor (n : Nat) : Nat := bitsForAux (n + 1) n

/-- Width of a migen `Signal(max=depth)`, i.e. `bits_for(depth-1)`. -/
def flenMax (depth : Nat) : Nat := bitsFor (depth - 1)

/-- First branch of `_inc` in fifo.py: `signal.eq(signal + 1)` on a `w`-bit
signal, i.e. increment with free wraparound by bit truncation. -/
def incTrunc (w s : Nat) : Nat := (s + 1) % 2 ^ w

/-- Second branch of `_inc` in fifo.py: explicit compare-and-reset,
`If(signal == modulo - 1, signal.eq(0)).Else(signal.eq(signal + 1))`. -/
def incWrap (modulo s : Nat) : Nat := if s = modulo - 1 then 0 else s + 1

/-- `_inc(signal, modulo)` from fifo.py: the truncating branch is taken
exactly when `modulo == 2**flen(signal)`, otherwise compare-and-reset. -/
def inc (w modulo s : Nat) : Nat :=
  if modulo = 2 ^ w then incTrunc w s else incWrap modulo s

/-- On in-range pointers both `_inc` branches compute a modular increment. -/
theorem inc_eq_mod (w modulo s : Nat) (hm : 0 < modulo) (hs : s < modulo) :
    inc w modulo s = (s + 1) % modulo := by
  unfold inc incTrunc incWrap
  split
  · rename_i h
    rw [h]
  · rcases Nat.lt_or_ge (s + 1) modulo with h1 | h1
    · rw [if_neg (by omega), Nat.mod_eq_of_lt h1]
    · have : s = modulo - 1 := by omega
      rw [if_pos this, this, Nat.sub_add_cancel hm, Nat.mod_self]

/-- The `SyncFIFO` module state: the `Memory(width, depth)` storage array and
the three registers `produce`, `consume` (`Signal(max=depth)`) and `level`
(`Signal(max=depth+1)`). -/
structure SyncFIFO where
  depth : Nat
  mem : List Nat
  produce : Nat
  consume : Nat
  level : Nat
deriving DecidableEq, Repr

/-- Combinational `self.writable.eq(self.level != depth)`. -/
def SyncFIFO.writable (s : SyncFIFO) : Bool := s.level != s.depth

/-- Combinational `self.readable.eq(self.level != 0)`. -/
def SyncFIFO.readable (s : SyncFIFO) : Bool := s.level != 0

/-- Combinational asynchronous read port: `dout` exposes `mem[consume]`. -/
def SyncFIFO.dout (s : SyncFIFO) : Nat := s.mem.getD s.consume 0

/-- Combinational `do_write.eq(self.writable & self.we)`. -/
def SyncFIFO.doWrite (s : SyncFIFO) (i : FifoInput) : Bool := s.writable && i.we

/-- Combinational `do_read.eq(self.readable & self.re)`. -/
def SyncFIFO.doRead (s : SyncFIFO) (i : FifoInput) : Bool := s.readable && i.re

/-- One clock tick of `SyncFIFO`: the memory write port stores `din` at
`produce` whenever `do_write` (independently of `flush`); the pointer
increments come from `_inc`; the later `flush` branch overrides the pointer
and level updates; simultaneous `do_write` and `do_read` leave `level`
unchanged. -/
def SyncFIFO.step (s : SyncFIFO) (i : FifoInput) : SyncFIFO :=
  { depth := s.depth
    mem := if s.doWrite i then s.mem.set s.produce i.din else s.mem
    produce := if i.flush then 0
      else if s.doWrite i then inc (flenMax s.depth) s.depth s.produce
      else s.produce
    consume := if i.flush then 0
      else if s.doRead i then inc (flenMax s.depth) s.depth s.consume
      else s.consume
    level := if i.flush then 0
      else if s.doWrite i then (if s.doRead i then s.level else s.level + 1)
      else if s.doRead i then s.level - 1
      else s.level }

/-- Reset state of a `SyncFIFO` of the given depth. -/
def SyncFIFO.init (depth : Nat) : SyncFIFO :=
  ⟨depth, List.replicate depth 0, 0, 0, 0⟩

/-- The committed-but-unread elements, oldest first: `level` slots of the
ring buffer starting at the consume pointer. -/
def SyncFIFO.contents (s : SyncFIFO) : List Nat :=
  ringSlice s.mem s.consume s.level

/-- Structural invariant tying the pointers, the level and the storage
together. -/
structure SyncFIFO.Inv (s : SyncFIFO) : Prop where
  depthPos : 0 < s.depth
  memLen : s.mem.length = s.depth
  produceLt : s.produce < s.depth
  consumeLt : s.consume < s.depth
  levelLe : s.level ≤ s.depth
  ptr : s.produce = (s.consume + s.level) % s.depth

/-- Run a `SyncFIFO` over a list of per-tick inputs. -/
def SyncFIFO.run (s : SyncFIFO) : List FifoInput → SyncFIFO
  | [] => s
  | i :: l => (s.step i).run l

/-- The sequence of committed writes (`do_write` ticks) along a run. -/
def SyncFIFO.runCommits (s : SyncFIFO) : List FifoInput → List Nat
  | [] => []
  | i :: l => (if s.doWrite i then [i.din] else []) ++ (s.step i).runCommits l

/-- The sequence of values delivered by committed reads (`do_read` ticks,
delivering the first-word-fall-through `dout`) along a run. -/
def SyncFIFO.runOutputs (s : SyncFIFO) : List FifoInput → List Nat
  | [] => []
  | i :: l => (if s.doRead i then [s.dout] else []) ++ (s.step i).runOutputs l

/-- States reachable from reset under arbitrary inputs. -/
inductive SyncFIFO.Reachable (depth : Nat) : SyncFIFO → Prop
  | refl : SyncFIFO.Reachable depth (SyncFIFO.init depth)
  | tail {s : SyncFIFO} (i : FifoInput) :
      SyncFIFO.Reachable depth s → SyncFIFO.Reachable depth (s.step i)

theorem ringSlice_length (mem : List Nat) (start len : Nat) :
    (ringSlice mem start len).length = len := by
  simp [ringSlice]

theorem ringSlice_mod (mem : List Nat) (start len : Nat) :
    ringSlice mem (start % mem.length) len = ringSlice mem start len := by
  simp only [ringSlice, Nat.mod_add_mod]

theorem ringSlice_succ (mem : List Nat) (start len : Nat) :
    ringSlice mem start (len + 1)
      = ringSlice mem start len ++ [mem.getD ((start + len) % mem.length) 0] := by
  simp [ringSlice, List.range_succ]

theorem ringSlice_cons (mem : List Nat) (start len : Nat) (h : 0 < len) :
    ringSlice mem start len
      = mem.getD (start % mem.length) 0 :: ringSlice mem (start + 1) (len - 1) := by
  obtain ⟨k, rfl⟩ : ∃ k, len = k + 1 := ⟨len - 1, by omega⟩
  simp only [ringSlice, List.range_succ_eq_map, List.map_cons, Nat.add_zero,
    List.map_map, Nat.add_sub_cancel]
  congr 1
  apply List.map_congr_left
  intro i _
  simp only [Function.comp]
  congr 2
  omega

/-- Two in-window offsets from the same start land on distinct ring slots. -/
theorem ringMod_ne (L start i len : Nat) (hi : i < len) (hlen : len < L) :
    (start + i) % L ≠ (start + len) % L := by
  intro h
  have h2 : i % L = len % L := Nat.ModEq.add_left_cancel' start h
  rw [Nat.mod_eq_of_lt (by omega), Nat.mod_eq_of_lt (by omega)] at h2
  omega

theorem ringSlice_set_untouched (mem : List Nat) (start len v : Nat)
    (hlen : len < mem.length) :
    ringSlice (mem.set ((start + len) % mem.length) v) start len
      = ringSlice mem start len := by
  unfold ringSlice
  rw [List.length_set]
  apply List.map_congr_left
  intro i hi
  rw [List.mem_range] at hi
  rw [List.getD_eq_getElem?_getD, List.getD_eq_getElem?_getD,
    List.getElem?_set_ne (Ne.symm (ringMod_ne mem.length start i len hi hlen))]

theorem ringSlice_set_snoc (mem : List Nat) (start len v : Nat)
    (hlen : len < mem.length) :
    ringSlice (mem.set ((start + len) % mem.length) v) start (len + 1)
      = ringSlice mem start len ++ [v] := by
  rw [ringSlice_succ, ringSlice_set_untouched mem start len v hlen]
  congr 1
  rw [List.length_set, List.getD_eq_getElem?_getD,
    List.getElem?_set_self (Nat.mod_lt _ (by omega))]
  rfl

theorem SyncFIFO.doWrite_level {s : SyncFIFO} {i : FifoInput}
    (hs : s.Inv) (h : s.doWrite i = true) : s.level < s.depth := by
  have h1 : s.level ≠ s.depth := by
    simp only [doWrite, writable, Bool.and_eq_true, bne_iff_ne, ne_eq] at h
    exact h.1
  have := hs.levelLe
  omega

theorem SyncFIFO.doRead_level {s : SyncFIFO} {i : FifoInput}
    (h : s.doRead i = true) : 0 < s.level := by
  simp only [doRead, readable, Bool.and_eq_true, bne_iff_ne, ne_eq] at h
  omega

theorem SyncFIFO.step_eval_flush {s : SyncFIFO} {i : FifoInput}
    (hf : i.flush = true) :
    s.step i
      = ⟨s.depth, if s.doWrite i then s.mem.set s.produce i.din else s.mem,
        0, 0, 0⟩ := by
  simp [step, hf]

theorem SyncFIFO.step_eval_both {s : SyncFIFO} {i : FifoInput} (hs : s.Inv)
    (hf : i.flush = false) (hw : s.doWrite i = true) (hr : s.doRead i = true) :
    s.step i
      = ⟨s.depth, s.mem.set s.produce i.din, (s.produce + 1) % s.depth,
        (s.consume + 1) % s.depth, s.level⟩ := by
  simp [step, hf, hw, hr, inc_eq_mod _ _ _ hs.depthPos hs.produceLt,
    inc_eq_mod _ _ _ hs.depthPos hs.consumeLt]

theorem SyncFIFO.step_eval_write {s : SyncFIFO} {i : FifoInput} (hs : s.Inv)
    (hf : i.flush = false) (hw : s.doWrite i = true) (hr : s.doRead i = false) :
    s.step i
      = ⟨s.depth, s.mem.set s.produce i.din, (s.produce + 1) % s.depth,
        s.consume, s.level + 1⟩ := by
  simp [step, hf, hw, hr, inc_eq_mod _ _ _ hs.depthPos hs.produceLt]

theorem SyncFIFO.step_eval_read {s : SyncFIFO} {i : FifoInput} (hs : s.Inv)
    (hf : i.flush = false) (hw : s.doWrite i = false) (hr : s.doRead i = true) :
    s.step i
      = ⟨s.depth, s.mem, s.produce, (s.consume + 1) % s.depth, s.level - 1⟩ := by
  simp [step, hf, hw, hr, inc_eq_mod _ _ _ hs.depthPos hs.consumeLt]

theorem SyncFIFO.step_eval_none {s : SyncFIFO} {i : FifoInput}
    (hf : i.flush = false) (hw : s.doWrite i = false) (hr : s.doRead i = false) :
    s.step i = s := by
  simp [step, hf, hw, hr]

/-- The invariant is preserved by every tick. -/
theorem SyncFIFO.step_inv_core {s : SyncFIFO} (hs : s.Inv) (i : FifoInput) :
    (s.step i).Inv := by
  obtain ⟨hd, hm, hp, hc, hl, hptr⟩ := hs
  have hs' : s.Inv := ⟨hd, hm, hp, hc, hl, hptr⟩
  by_cases hf : i.flush = true
  · rw [SyncFIFO.step_eval_flush hf]
    refine ⟨hd, ?_, hd, hd, hd.le, by simp⟩
    split <;> simp [List.length_set, hm]
  · rw [Bool.not_eq_true] at hf
    by_cases hw : s.doWrite i = true <;> by_cases hr : s.doRead i = true
    · have h1 := SyncFIFO.doWrite_level hs' hw
      have h2 := SyncFIFO.doRead_level hr
      rw [SyncFIFO.step_eval_both hs' hf hw hr]
      refine ⟨hd, by simp [List.length_set, hm], Nat.mod_lt _ hd,
        Nat.mod_lt _ hd, hl, ?_⟩
      dsimp only
      rw [hptr, Nat.mod_add_mod, Nat.mod_add_mod]
      congr 1
      omega
    · rw [Bool.not_eq_true] at hr
      have h1 := SyncFIFO.doWrite_level hs' hw
      rw [SyncFIFO.step_eval_write hs' hf hw hr]
      refine ⟨hd, by simp [List.length_set, hm], Nat.mod_lt _ hd, hc,
        by dsimp only; omega, ?_⟩
      dsimp only
      rw [hptr, Nat.mod_add_mod]
      congr 1
    · rw [Bool.not_eq_true] at hw
      have h2 := SyncFIFO.doRead_level hr
      rw [SyncFIFO.step_eval_read hs' hf hw hr]
      refine ⟨hd, hm, hp, Nat.mod_lt _ hd, by dsimp only; omega, ?_⟩
      dsimp only
      rw [hptr, Nat.mod_add_mod]
      congr 1
      omega
    · rw [Bool.not_eq_true] at hw hr
      rw [SyncFIFO.step_eval_none hf hw hr]
      exact hs'

/-- Under `readable`, the contents decompose as `dout` followed by the rest. -/
theorem SyncFIFO.contents_cons {s : SyncFIFO} (hs : s.Inv)
    (hr : s.readable = true) :
    s.contents = s.dout :: ringSlice s.mem (s.consume + 1) (s.level - 1) := by
  have hl : 0 < s.level := by
    simp only [readable, bne_iff_ne, ne_eq] at hr
    omega
  rw [contents, ringSlice_cons _ _ _ hl, hs.memLen,
    Nat.mod_eq_of_lt hs.consumeLt]
  rfl

theorem SyncFIFO.doRead_readable {s : SyncFIFO} {i : FifoInput}
    (hr : s.doRead i = true) : s.readable = true := by
  simp only [doRead, Bool.and_eq_true] at hr
  exact hr.1

theorem SyncFIFO.contents_length (s : SyncFIFO) : s.contents.length = s.level :=
  ringSlice_length s.mem s.consume s.level

/-- A flush tick empties the queue (whatever else happens that tick). -/
theorem SyncFIFO.contents_step_flush {s : SyncFIFO} {i : FifoInput}
    (hf : i.flush = true) : (s.step i).contents = [] := by
  rw [SyncFIFO.step_eval_flush hf]
  simp [contents, ringSlice]

/-- A committed write (alone) appends `din` to the queue. -/
theorem SyncFIFO.contents_step_write {s : SyncFIFO} {i : FifoInput}
    (hs : s.Inv) (hf : i.flush = false) (hw : s.doWrite i = true)
    (hr : s.doRead i = false) :
    (s.step i).contents = s.contents ++ [i.din] := by
  have hwlt := SyncFIFO.doWrite_level hs hw
  rw [SyncFIFO.step_eval_write hs hf hw hr]
  dsimp only [contents]
  have hidx : s.produce = (s.consume + s.level) % s.mem.length := by
    rw [hs.memLen]
    exact hs.ptr
  rw [hidx]
  exact ringSlice_set_snoc s.mem s.consume s.level i.din
    (by rw [hs.memLen]; omega)

/-- A committed read (alone) removes the head of the queue. -/
theorem SyncFIFO.contents_step_read {s : SyncFIFO} {i : FifoInput}
    (hs : s.Inv) (hf : i.flush = false) (hw : s.doWrite i = false)
    (hr : s.doRead i = true) :
    (s.step i).contents = s.contents.tail := by
  rw [SyncFIFO.contents_cons hs (SyncFIFO.doRead_readable hr), List.tail_cons,
    SyncFIFO.step_eval_read hs hf hw hr]
  dsimp only [contents]
  rw [← hs.memLen, ringSlice_mod]

/-- Simultaneous committed write and read: pop the head, append `din`. -/
theorem SyncFIFO.contents_step_both {s : SyncFIFO} {i : FifoInput}
    (hs : s.Inv) (hf : i.flush = false) (hw : s.doWrite i = true)
    (hr : s.doRead i = true) :
    (s.step i).contents = s.contents.tail ++ [i.din] := by
  have hwlt := SyncFIFO.doWrite_level hs hw
  have hrlt := SyncFIFO.doRead_level hr
  obtain ⟨k, hk⟩ : ∃ k, s.level = k + 1 := ⟨s.level - 1, by omega⟩
  rw [SyncFIFO.contents_cons hs (SyncFIFO.doRead_readable hr), List.tail_cons,
    hk, Nat.add_sub_cancel, SyncFIFO.step_eval_both hs hf hw hr]
  dsimp only [contents]
  rw [hk]
  have hmodlen : (s.consume + 1) % s.depth
      = (s.consume + 1) % (s.mem.set s.produce i.din).length := by
    rw [List.length_set, hs.memLen]
  rw [hmodlen, ringSlice_mod]
  have hidx : s.produce = (s.consume + 1 + k) % s.mem.length := by
    rw [hs.memLen, hs.ptr, hk]
    congr 1
    omega
  rw [hidx]
  exact ringSlice_set_snoc s.mem (s.consume + 1) k i.din
    (by rw [hs.memLen]; omega)

/-- First-word-fall-through: under `readable` the combinational `dout` is the
oldest committed-but-unread element. -/
theorem SyncFIFO.dout_head_core {s : SyncFIFO} (hs : s.Inv)
    (hr : s.readable = true) :
    s.contents ≠ [] ∧ s.dout = s.contents.headD 0 := by
  rw [SyncFIFO.contents_cons hs hr]
  exact ⟨by simp, rfl⟩

/-- Trace refinement: along any flush-free run, the committed writes are
exactly the delivered reads followed by what is still queued. -/
theorem SyncFIFO.trace_core {s : SyncFIFO} (hs : s.Inv) (l : List FifoInput)
    (hnf : ∀ i ∈ l, i.flush = false) :
    s.contents ++ s.runCommits l = s.runOutputs l ++ (s.run l).contents := by
  induction l generalizing s with
  | nil => simp [runCommits, runOutputs, run]
  | cons i l ih =>
    have hf : i.flush = false := hnf i (by simp)
    have ih2 := ih (SyncFIFO.step_inv_core hs i)
      (fun j hj => hnf j (List.mem_cons_of_mem _ hj))
    simp only [runCommits, runOutputs, run]
    by_cases hw : s.doWrite i = true <;> by_cases hr : s.doRead i = true
    · have hcc := SyncFIFO.contents_cons hs (SyncFIFO.doRead_readable hr)
      have hstep := SyncFIFO.contents_step_both hs hf hw hr
      rw [hcc, List.tail_cons] at hstep
      rw [hstep] at ih2
      rw [hw, hr, hcc]
      simp only [if_true, List.cons_append, List.append_assoc,
        List.nil_append] at ih2 ⊢
      rw [ih2]
    · rw [Bool.not_eq_true] at hr
      have hstep := SyncFIFO.contents_step_write hs hf hw hr
      rw [hstep] at ih2
      rw [hw, hr]
      simp only [if_true, Bool.false_eq_true, if_false, List.append_assoc,
        List.nil_append] at ih2 ⊢
      exact ih2
    · rw [Bool.not_eq_true] at hw
      have hcc := SyncFIFO.contents_cons hs (SyncFIFO.doRead_readable hr)
      have hstep := SyncFIFO.contents_step_read hs hf hw hr
      rw [hcc, List.tail_cons] at hstep
      rw [hstep] at ih2
      rw [hw, hr, hcc]
      simp only [Bool.false_eq_true, if_false, if_true, List.cons_append,
        List.append_assoc, List.nil_append] at ih2 ⊢
      rw [ih2]
    · rw [Bool.not_eq_true] at hw hr
      have hstep := SyncFIFO.step_eval_none hf hw hr
      rw [hw, hr]
      simp only [Bool.false_eq_true, if_false, List.nil_append] at ih2 ⊢
      rw [hstep] at ih2 ⊢
      exact ih2

/-- Every reachable state of a positive-depth `SyncFIFO` satisfies the
invariant. -/
theorem SyncFIFO.reachable_inv_core {depth : Nat} (hd : 0 < depth) {s : SyncFIFO}
    (h : SyncFIFO.Reachable depth s) : s.Inv := by
  induction h with
  | refl =>
    exact ⟨hd, by simp [SyncFIFO.init], by simpa [SyncFIFO.init] using hd,
      by simpa [SyncFIFO.init] using hd, by simp [SyncFIFO.init],
      by simp [SyncFIFO.init]⟩
  | tail i hs ih => exact SyncFIFO.step_inv_core ih i

/-- `SyncFIFOClassic`: the inner `SyncFIFO` plus the registered output
`self.sync += If(self.re & self.readable, dout.eq(fifo.dout_bits))`.
All other ports pass through. -/
structure SyncFIFOClassic where
  fifo : SyncFIFO
  dout : Nat
deriving DecidableEq, Repr

def SyncFIFOClassic.writable (s : SyncFIFOClassic) : Bool := s.fifo.writable

def SyncFIFOClassic.readable (s : SyncFIFOClassic) : Bool := s.fifo.readable

def SyncFIFOClassic.level (s : SyncFIFOClassic) : Nat := s.fifo.level

def SyncFIFOClassic.step (s : SyncFIFOClassic) (i : FifoInput) :
    SyncFIFOClassic :=
  { fifo := s.fifo.step i
    dout := if i.re && s.fifo.readable then s.fifo.dout else s.dout }

def SyncFIFOClassic.init (depth : Nat) : SyncFIFOClassic :=
  ⟨SyncFIFO.init depth, 0⟩

/-- `SyncFIFOBuffered`: wraps `SyncFIFOClassic`, adding the outer `readable`
latch; the inner read enable is driven combinationally as
`fifo.re.eq(fifo.readable & (~self.readable | self.re))`. -/
structure SyncFIFOBuffered where
  fifo : SyncFIFOClassic
  readable : Bool
deriving DecidableEq, Repr

def SyncFIFOBuffered.writable (s : SyncFIFOBuffered) : Bool := s.fifo.writable

def SyncFIFOBuffered.dout (s : SyncFIFOBuffered) : Nat := s.fifo.dout

def SyncFIFOBuffered.level (s : SyncFIFOBuffered) : Nat := s.fifo.level

def SyncFIFOBuffered.fifoRe (s : SyncFIFOBuffered) (i : FifoInput) : Bool :=
  s.fifo.readable && (!s.readable || i.re)

def SyncFIFOBuffered.step (s : SyncFIFOBuffered) (i : FifoInput) :
    SyncFIFOBuffered :=
  { fifo := s.fifo.step { i with re := s.fifoRe i }
    readable := if i.flush then false
      else if s.fifoRe i then true
      else if i.re then false
      else s.readable }

def SyncFIFOBuffered.init (depth : Nat) : SyncFIFOBuffered :=
  ⟨SyncFIFOClassic.init depth, false⟩

/-- Abstract queue contents of the buffered FIFO: the element held in the
outer stage (the classic adapter's registered `dout`, when the outer
`readable` latch is set) followed by the core's contents. -/
def SyncFIFOBuffered.contents (s : SyncFIFOBuffered) : List Nat :=
  (if s.readable then [s.fifo.dout] else []) ++ s.fifo.fifo.contents

def SyncFIFOBuffered.doWrite (s : SyncFIFOBuffered) (i : FifoInput) : Bool :=
  s.writable && i.we

def SyncFIFOBuffered.doRead (s : SyncFIFOBuffered) (i : FifoInput) : Bool :=
  s.readable && i.re

/-- `SyncFIFORelaxed`: wraps `SyncFIFO`, adding the registered mirror
(`dout`/`dout_readable`), the bypass holding cell (`buff`/`buff_readable`)
and the `do_shunt` path. -/
structure SyncFIFORelaxed where
  fifo : SyncFIFO
  dout : Nat
  doutReadable : Bool
  buff : Nat
  buffReadable : Bool
deriving DecidableEq, Repr

def SyncFIFORelaxed.writable (s : SyncFIFORelaxed) : Bool := s.fifo.writable

/-- Combinational `self.readable.eq(buff_readable | dout_readable)`. -/
def SyncFIFORelaxed.readable (s : SyncFIFORelaxed) : Bool :=
  s.buffReadable || s.doutReadable

/-- Combinational `self.dout_bits.eq(Mux(buff_readable, buff, dout))`. -/
def SyncFIFORelaxed.doutBits (s : SyncFIFORelaxed) : Nat :=
  if s.buffReadable then s.buff else s.dout

/-- Combinational `self.level.eq(fifo.level + buff_readable)`. -/
def SyncFIFORelaxed.level (s : SyncFIFORelaxed) : Nat :=
  s.fifo.level + (if s.buffReadable then 1 else 0)

/-- Combinational `do_shunt.eq(self.we & ~fifo.readable
& ~(self.readable & ~self.re))`. -/
def SyncFIFORelaxed.doShunt (s : SyncFIFORelaxed) (i : FifoInput) : Bool :=
  i.we && !s.fifo.readable && !(s.readable && !i.re)

/-- Combinational `fifo.we.eq(self.we & ~do_shunt)`. -/
def SyncFIFORelaxed.fifoWe (s : SyncFIFORelaxed) (i : FifoInput) : Bool :=
  i.we && !(s.doShunt i)

/-- Combinational `fifo.re.eq(self.re | ~self.readable)`. -/
def SyncFIFORelaxed.fifoRe (s : SyncFIFORelaxed) (i : FifoInput) : Bool :=
  i.re || !s.readable

def SyncFIFORelaxed.step (s : SyncFIFORelaxed) (i : FifoInput) :
    SyncFIFORelaxed :=
  { fifo := s.fifo.step { i with we := s.fifoWe i, re := s.fifoRe i }
    dout := s.fifo.dout
    doutReadable := if i.flush then false else s.fifo.readable
    buff := if s.doShunt i then i.din
      else if !i.re && !s.buffReadable then s.dout
      else s.buff
    buffReadable := if i.flush then false
      else if s.doShunt i then true
      else if !i.re && !s.buffReadable then s.doutReadable
      else if i.re && s.buffReadable then false
      else s.buffReadable }

def SyncFIFORelaxed.init (depth : Nat) : SyncFIFORelaxed :=
  ⟨SyncFIFO.init depth, 0, false, 0, false⟩

/-- Abstract queue contents of the relaxed FIFO: the oldest element sits in
`buff` when the bypass cell is occupied, otherwise in the registered `dout`
mirror when it alone is valid (in the `buff ∧ dout` case `dout` is a mere
copy of the inner head and is not counted twice); the inner contents
follow. -/
def SyncFIFORelaxed.contents (s : SyncFIFORelaxed) : List Nat :=
  (if s.buffReadable then [s.buff]
    else if s.doutReadable then [s.dout] else []) ++ s.fifo.contents

def SyncFIFORelaxed.doWrite (s : SyncFIFORelaxed) (i : FifoInput) : Bool :=
  s.writable && i.we

def SyncFIFORelaxed.doRead (s : SyncFIFORelaxed) (i : FifoInput) : Bool :=
  s.readable && i.re

/-- Invariant for the relaxed wrapper: the inner invariant, plus: when both
the bypass cell and the mirror are valid the mirror merely copies the inner
head (and the inner queue is nonempty); when neither is valid the inner
queue is empty. -/
structure SyncFIFORelaxed.Inv (s : SyncFIFORelaxed) : Prop where
  inner : s.fifo.Inv
  copy : s.buffReadable = true → s.doutReadable = true →
    s.fifo.level ≠ 0 ∧ s.dout = s.fifo.dout
  drain : s.buffReadable = false → s.doutReadable = false → s.fifo.level = 0

/-- The abstract effect of one tick on a bounded queue: a committed write
appends `din`, a committed read removes the head (the read sees the old
head, so the write is appended first). -/
def queueUpdate (dw dr : Bool) (din : Nat) (q : List Nat) : List Nat :=
  let q1 := if dw then q ++ [din] else q
  if dr then q1.tail else q1

/-- Generic run of a step function over a list of per-tick inputs. -/
def runG {σ : Type} (step : σ → FifoInput → σ) (s : σ) :
    List FifoInput → σ
  | [] => s
  | i :: l => runG step (step s i) l

/-- Generic committed-write trace. -/
def runCommitsG {σ : Type} (step : σ → FifoInput → σ)
    (dw : σ → FifoInput → Bool) (s : σ) : List FifoInput → List Nat
  | [] => []
  | i :: l => (if dw s i then [i.din] else []) ++ runCommitsG step dw (step s i) l

/-- Generic committed-read (delivered values) trace. -/
def runOutputsG {σ : Type} (step : σ → FifoInput → σ)
    (dr : σ → FifoInput → Bool) (d : σ → Nat) (s : σ) :
    List FifoInput → List Nat
  | [] => []
  | i :: l => (if dr s i then [d s] else []) ++ runOutputsG step dr d (step s i) l

/-- Generic trace-refinement: any state machine whose abstract contents obey
`queueUpdate` tick by tick, and whose output is the head of the contents
whenever a read commits, delivers along any flush-free run exactly its
committed writes minus what is still queued. -/
theorem trace_generic {σ : Type} (step : σ → FifoInput → σ)
    (dw dr : σ → FifoInput → Bool) (C : σ → List Nat) (d : σ → Nat)
    (P : σ → Prop)
    (hP : ∀ s i, P s → i.flush = false → P (step s i))
    (hstep : ∀ s i, P s → i.flush = false →
      C (step s i) = queueUpdate (dw s i) (dr s i) i.din (C s))
    (hhead : ∀ s i, P s → dr s i = true → C s ≠ [] ∧ d s = (C s).headD 0) :
    ∀ (l : List FifoInput) (s : σ), P s → (∀ i ∈ l, i.flush = false) →
      C s ++ runCommitsG step dw s l
        = runOutputsG step dr d s l ++ C (runG step s l) := by
  intro l
  induction l with
  | nil => intro s _ _; simp [runCommitsG, runOutputsG, runG]
  | cons i l ih =>
    intro s hs hnf
    have hf : i.flush = false := hnf i (by simp)
    have ih2 := ih (step s i) (hP s i hs hf)
      (fun j hj => hnf j (List.mem_cons_of_mem _ hj))
    rw [hstep s i hs hf] at ih2
    simp only [runCommitsG, runOutputsG, runG]
    by_cases hw : dw s i = true <;> by_cases hr : dr s i = true
    · obtain ⟨hne, hd⟩ := hhead s i hs hr
      obtain ⟨h0, t, hct⟩ : ∃ h0 t, C s = h0 :: t := by
        cases hq : C s with
        | nil => exact absurd hq hne
        | cons a b => exact ⟨a, b, rfl⟩
      have hd2 : d s = h0 := by rw [hd, hct, List.headD_cons]
      rw [hw, hr] at ih2 ⊢
      rw [hct] at ih2 ⊢
      rw [hd2]
      simp only [queueUpdate, if_true, List.cons_append, List.tail_cons,
        List.append_assoc, List.nil_append] at ih2 ⊢
      rw [ih2]
    · rw [Bool.not_eq_true] at hr
      rw [hw, hr] at ih2 ⊢
      simp only [queueUpdate, if_true, Bool.false_eq_true, if_false,
        List.append_assoc, List.nil_append] at ih2 ⊢
      exact ih2
    · rw [Bool.not_eq_true] at hw
      obtain ⟨hne, hd⟩ := hhead s i hs hr
      obtain ⟨h0, t, hct⟩ : ∃ h0 t, C s = h0 :: t := by
        cases hq : C s with
        | nil => exact absurd hq hne
        | cons a b => exact ⟨a, b, rfl⟩
      have hd2 : d s = h0 := by rw [hd, hct, List.headD_cons]
      rw [hw, hr] at ih2 ⊢
      rw [hct] at ih2 ⊢
      rw [hd2]
      simp only [queueUpdate, Bool.false_eq_true, if_false, if_true,
        List.tail_cons, List.cons_append, List.append_assoc,
        List.nil_append] at ih2 ⊢
      rw [ih2]
    · rw [Bool.not_eq_true] at hw hr
      rw [hw, hr] at ih2 ⊢
      simp only [queueUpdate, Bool.false_eq_true, if_false,
        List.nil_append] at ih2 ⊢
      rw [ih2]

theorem SyncFIFO.readable_false_level {s : SyncFIFO} (h : s.readable = false) :
    s.level = 0 := by
  simpa [readable] using h

theorem SyncFIFO.contents_nil {s : SyncFIFO} (h : s.level = 0) :
    s.contents = [] := by
  simp [contents, h, ringSlice]

/-- Inner invariant preservation through a buffered step. -/
theorem SyncFIFOBuffered.step_inv_buffered {s : SyncFIFOBuffered} (hs : s.fifo.fifo.Inv)
    (i : FifoInput) : (s.step i).fifo.fifo.Inv :=
  SyncFIFO.step_inv_core hs _

/-- FWFT shape of the buffered contents. -/
theorem SyncFIFOBuffered.dout_head_buffered {s : SyncFIFOBuffered}
    (hr : s.readable = true) :
    s.contents ≠ [] ∧ s.dout = s.contents.headD 0 := by
  simp [contents, dout, hr]

/-- One buffered tick transforms the abstract contents exactly as a queue:
the internal hand-off from the core through the classic stage into the outer
latch never loses, duplicates, or reorders an element. -/
theorem SyncFIFOBuffered.contents_step {s : SyncFIFOBuffered}
    (hs : s.fifo.fifo.Inv) (i : FifoInput) (hf : i.flush = false) :
    (s.step i).contents
      = queueUpdate (s.doWrite i) (s.doRead i) i.din s.contents := by
  have hdw : s.fifo.fifo.doWrite { i with re := s.fifoRe i } = s.doWrite i := rfl
  by_cases hcr : s.fifo.fifo.readable = true
  · obtain ⟨hne, hd⟩ := SyncFIFO.dout_head_core hs hcr
    obtain ⟨h0, t, hq⟩ : ∃ h0 t, s.fifo.fifo.contents = h0 :: t := by
      cases hqq : s.fifo.fifo.contents with
      | nil => exact absurd hqq hne
      | cons a b => exact ⟨a, b, rfl⟩
    have hd0 : s.fifo.fifo.dout = h0 := by rw [hd, hq, List.headD_cons]
    by_cases hre : i.re = true <;> by_cases hR : s.readable = true
    · -- core nonempty, reading, outer stage full
      have hfr : s.fifoRe i = true := by
        simp [fifoRe, SyncFIFOClassic.readable, hcr, hre, hR]
      have hdr : s.fifo.fifo.doRead { i with re := s.fifoRe i } = true := by
        simp [SyncFIFO.doRead, hcr, hfr]
      by_cases hw : s.doWrite i = true
      · have hcs := @SyncFIFO.contents_step_both s.fifo.fifo { i with re := s.fifoRe i } hs hf (hdw.trans hw) hdr
        rw [hfr, hf] at hcs
        simp [step, SyncFIFOClassic.step, contents, doRead, hfr, hf, hcr,
          hre, hR, hw, hcs, hq, hd0, queueUpdate]
      · rw [Bool.not_eq_true] at hw
        have hcs := @SyncFIFO.contents_step_read s.fifo.fifo { i with re := s.fifoRe i } hs hf (hdw.trans hw) hdr
        rw [hfr, hf] at hcs
        simp [step, SyncFIFOClassic.step, contents, doRead, hfr, hf, hcr,
          hre, hR, hw, hcs, hq, hd0, queueUpdate]
    · -- core nonempty, reading, outer stage empty
      have hfr : s.fifoRe i = true := by
        simp [fifoRe, SyncFIFOClassic.readable, hcr, hre, hR]
      have hdr : s.fifo.fifo.doRead { i with re := s.fifoRe i } = true := by
        simp [SyncFIFO.doRead, hcr, hfr]
      rw [Bool.not_eq_true] at hR
      by_cases hw : s.doWrite i = true
      · have hcs := @SyncFIFO.contents_step_both s.fifo.fifo { i with re := s.fifoRe i } hs hf (hdw.trans hw) hdr
        rw [hfr, hf] at hcs
        simp [step, SyncFIFOClassic.step, contents, doRead, hfr, hf, hcr,
          hre, hR, hw, hcs, hq, hd0, queueUpdate]
      · rw [Bool.not_eq_true] at hw
        have hcs := @SyncFIFO.contents_step_read s.fifo.fifo { i with re := s.fifoRe i } hs hf (hdw.trans hw) hdr
        rw [hfr, hf] at hcs
        simp [step, SyncFIFOClassic.step, contents, doRead, hfr, hf, hcr,
          hre, hR, hw, hcs, hq, hd0, queueUpdate]
    · -- core nonempty, not reading, outer stage full: everything holds
      have hfr : s.fifoRe i = false := by
        simp [fifoRe, SyncFIFOClassic.readable, hcr, hre, hR]
      have hdr : s.fifo.fifo.doRead { i with re := s.fifoRe i } = false := by
        simp [SyncFIFO.doRead, hcr, hfr]
      by_cases hw : s.doWrite i = true
      · have hcs := @SyncFIFO.contents_step_write s.fifo.fifo { i with re := s.fifoRe i } hs hf (hdw.trans hw) hdr
        rw [hfr, hf] at hcs
        simp [step, SyncFIFOClassic.step, contents, doRead, hfr, hf, hcr,
          hre, hR, hw, hcs, hq, queueUpdate]
      · rw [Bool.not_eq_true] at hw
        have hcs := @SyncFIFO.step_eval_none s.fifo.fifo { i with re := s.fifoRe i } hf (hdw.trans hw) hdr
        rw [hfr, hf] at hcs
        simp [step, SyncFIFOClassic.step, contents, doRead, hfr, hf, hcr,
          hre, hR, hw, hcs, queueUpdate]
    · -- core nonempty, not reading, outer stage empty: greedy refill
      have hfr : s.fifoRe i = true := by
        simp [fifoRe, SyncFIFOClassic.readable, hcr, hre, hR]
      have hdr : s.fifo.fifo.doRead { i with re := s.fifoRe i } = true := by
        simp [SyncFIFO.doRead, hcr, hfr]
      rw [Bool.not_eq_true] at hR
      by_cases hw : s.doWrite i = true
      · have hcs := @SyncFIFO.contents_step_both s.fifo.fifo { i with re := s.fifoRe i } hs hf (hdw.trans hw) hdr
        rw [hfr, hf] at hcs
        simp [step, SyncFIFOClassic.step, contents, doRead, hfr, hf, hcr,
          hre, hR, hw, hcs, hq, hd0, queueUpdate]
      · rw [Bool.not_eq_true] at hw
        have hcs := @SyncFIFO.contents_step_read s.fifo.fifo { i with re := s.fifoRe i } hs hf (hdw.trans hw) hdr
        rw [hfr, hf] at hcs
        simp [step, SyncFIFOClassic.step, contents, doRead, hfr, hf, hcr,
          hre, hR, hw, hcs, hq, hd0, queueUpdate]
  · -- core empty
    rw [Bool.not_eq_true] at hcr
    have hq : s.fifo.fifo.contents = [] :=
      SyncFIFO.contents_nil (SyncFIFO.readable_false_level hcr)
    have hfr : s.fifoRe i = false := by
      simp [fifoRe, SyncFIFOClassic.readable, hcr]
    have hdr : s.fifo.fifo.doRead { i with re := s.fifoRe i } = false := by
      simp [SyncFIFO.doRead, hcr]
    by_cases hw : s.doWrite i = true
    · have hcs := @SyncFIFO.contents_step_write s.fifo.fifo { i with re := s.fifoRe i } hs hf (hdw.trans hw) hdr
      rw [hfr, hf] at hcs
      by_cases hre : i.re = true <;> by_cases hR : s.readable = true <;>
        simp [step, SyncFIFOClassic.step, contents, doRead, hfr, hf, hcr,
          hre, hR, hw, hcs, hq, queueUpdate]
    · rw [Bool.not_eq_true] at hw
      have hcs := @SyncFIFO.step_eval_none s.fifo.fifo { i with re := s.fifoRe i } hf (hdw.trans hw) hdr
      rw [hfr, hf] at hcs
      by_cases hre : i.re = true <;> by_cases hR : s.readable = true <;>
        simp [step, SyncFIFOClassic.step, contents, doRead, hfr, hf, hcr,
          hre, hR, hw, hcs, hq, queueUpdate]

/-- A tick with no committed read leaves the combinational `dout` unchanged
while the queue is nonempty: the write lands at `produce`, which is a
different slot from `consume`. -/
theorem SyncFIFO.dout_step_keep {s : SyncFIFO} {i : FifoInput} (hs : s.Inv)
    (hf : i.flush = false) (hr : s.doRead i = false) (hl : s.level ≠ 0) :
    (s.step i).dout = s.dout := by
  by_cases hw : s.doWrite i = true
  · have hwl := SyncFIFO.doWrite_level hs hw
    have hne : s.produce ≠ s.consume := by
      rw [hs.ptr]
      intro h
      have h2 := ringMod_ne s.depth s.consume 0 s.level (by omega) (by omega)
      rw [Nat.add_zero, Nat.mod_eq_of_lt hs.consumeLt] at h2
      exact h2 h.symm
    rw [SyncFIFO.step_eval_write hs hf hw hr]
    dsimp only [dout]
    rw [List.getD_eq_getElem?_getD, List.getD_eq_getElem?_getD,
      List.getElem?_set_ne hne]
  · rw [Bool.not_eq_true] at hw
    rw [SyncFIFO.step_eval_none hf hw hr]

/-- A tick with no committed read never decreases `level`. -/
theorem SyncFIFO.level_step_no_read {s : SyncFIFO} {i : FifoInput}
    (hf : i.flush = false) (hr : s.doRead i = false) :
    s.level ≤ (s.step i).level := by
  simp only [step, hf, hr, Bool.false_eq_true, if_false]
  split <;> omega

theorem SyncFIFO.readable_true_level {s : SyncFIFO} (h : s.readable = true) :
    s.level ≠ 0 := by
  simpa [readable] using h

theorem SyncFIFO.readable_of_level {s : SyncFIFO} (h : s.level ≠ 0) :
    s.readable = true := by
  simpa [readable] using h

/-- FWFT shape of the relaxed contents: the muxed output is always the head.
-/
theorem SyncFIFORelaxed.doutBits_head {s : SyncFIFORelaxed}
    (hr : s.readable = true) :
    s.contents ≠ [] ∧ s.doutBits = s.contents.headD 0 := by
  by_cases hb : s.buffReadable = true
  · simp [contents, doutBits, hb]
  · rw [Bool.not_eq_true] at hb
    have hdro : s.doutReadable = true := by
      simpa [readable, hb] using hr
    simp [contents, doutBits, hb, hdro]

/-- One flush-free relaxed tick: the invariant is preserved and the abstract
contents obey the queue law (the bypass path and the inner path never race
for a slot, and the externally observed order is undisturbed). -/
theorem SyncFIFORelaxed.step_good {s : SyncFIFORelaxed} (hs : s.Inv)
    (i : FifoInput) (hf : i.flush = false) :
    (s.step i).Inv ∧ (s.step i).contents
      = queueUpdate (s.doWrite i) (s.doRead i) i.din s.contents := by
  have hdpos := hs.inner.depthPos
  by_cases hb : s.buffReadable = true
  · by_cases hdro : s.doutReadable = true
    · -- bypass cell and mirror both valid: mirror is a copy of the core head
      obtain ⟨hlv, hcopy⟩ := hs.copy hb hdro
      have hcr : s.fifo.readable = true := SyncFIFO.readable_of_level hlv
      obtain ⟨hne, hdh⟩ := SyncFIFO.dout_head_core hs.inner hcr
      obtain ⟨q0, qt, hq⟩ : ∃ q0 qt, s.fifo.contents = q0 :: qt := by
        cases hqq : s.fifo.contents with
        | nil => exact absurd hqq hne
        | cons a b => exact ⟨a, b, rfl⟩
      have hq0 : s.fifo.dout = q0 := by rw [hdh, hq, List.headD_cons]
      have hshunt : s.doShunt i = false := by simp [doShunt, hcr]
      have hjw : s.fifo.doWrite { i with we := s.fifoWe i, re := s.fifoRe i }
          = s.doWrite i := by
        simp [SyncFIFO.doWrite, doWrite, writable, fifoWe, hshunt]
      have hRd : s.readable = true := by simp [readable, hb]
      have hfre : s.fifoRe i = i.re := by simp [fifoRe, hRd]
      by_cases hre : i.re = true
      · -- outer read commits, core pops into the mirror
        have hjr : s.fifo.doRead { i with we := s.fifoWe i, re := s.fifoRe i }
            = true := by
          simp [SyncFIFO.doRead, hcr, hfre, hre]
        constructor
        · refine ⟨SyncFIFO.step_inv_core hs.inner _, ?_, ?_⟩
          · intro h1 _
            simp [step, hshunt, hre, hb, hf] at h1
          · intro _ h2
            simp [step, hf, hcr] at h2
        · by_cases hw : s.doWrite i = true
          · have hcs := @SyncFIFO.contents_step_both s.fifo
              { i with we := s.fifoWe i, re := s.fifoRe i } hs.inner hf
              (hjw.trans hw) hjr
            rw [hf] at hcs
            simp [step, contents, doRead, readable, hshunt, hre, hb, hdro, hf,
              hcr, hw, hcs, hq, hq0, queueUpdate]
          · rw [Bool.not_eq_true] at hw
            have hcs := @SyncFIFO.contents_step_read s.fifo
              { i with we := s.fifoWe i, re := s.fifoRe i } hs.inner hf
              (hjw.trans hw) hjr
            rw [hf] at hcs
            simp [step, contents, doRead, readable, hshunt, hre, hb, hdro, hf,
              hcr, hw, hcs, hq, hq0, queueUpdate]
      · -- stalled: everything holds, the mirror refreshes in place
        rw [Bool.not_eq_true] at hre
        have hjr : s.fifo.doRead { i with we := s.fifoWe i, re := s.fifoRe i }
            = false := by
          simp [SyncFIFO.doRead, hfre, hre]
        have hkeep := @SyncFIFO.dout_step_keep s.fifo
          { i with we := s.fifoWe i, re := s.fifoRe i } hs.inner hf hjr hlv
        have hlev := @SyncFIFO.level_step_no_read s.fifo
          { i with we := s.fifoWe i, re := s.fifoRe i } hf hjr
        constructor
        · refine ⟨SyncFIFO.step_inv_core hs.inner _, ?_, ?_⟩
          · intro _ _
            constructor
            · simp only [step]
              omega
            · simp only [step]
              exact hkeep.symm
          · intro h1 _
            simp [step, hshunt, hre, hb, hf] at h1
        · by_cases hw : s.doWrite i = true
          · have hcs := @SyncFIFO.contents_step_write s.fifo
              { i with we := s.fifoWe i, re := s.fifoRe i } hs.inner hf
              (hjw.trans hw) hjr
            rw [hf] at hcs
            simp [step, contents, doRead, readable, hshunt, hre, hb, hdro, hf,
              hcr, hw, hcs, hq, queueUpdate]
          · rw [Bool.not_eq_true] at hw
            have hcs := @SyncFIFO.step_eval_none s.fifo
              { i with we := s.fifoWe i, re := s.fifoRe i } hf
              (hjw.trans hw) hjr
            rw [hf] at hcs
            simp [step, contents, doRead, readable, hshunt, hre, hb, hdro, hf,
              hcr, hw, hcs, hq, queueUpdate]
    · -- bypass cell valid, mirror empty
      rw [Bool.not_eq_true] at hdro
      have hRd : s.readable = true := by simp [readable, hb]
      by_cases hcr : s.fifo.readable = true
      · obtain ⟨hne, hdh⟩ := SyncFIFO.dout_head_core hs.inner hcr
        obtain ⟨q0, qt, hq⟩ : ∃ q0 qt, s.fifo.contents = q0 :: qt := by
          cases hqq : s.fifo.contents with
          | nil => exact absurd hqq hne
          | cons a b => exact ⟨a, b, rfl⟩
        have hq0 : s.fifo.dout = q0 := by rw [hdh, hq, List.headD_cons]
        have hlv : s.fifo.level ≠ 0 := SyncFIFO.readable_true_level hcr
        have hshunt : s.doShunt i = false := by simp [doShunt, hcr]
        have hjw : s.fifo.doWrite { i with we := s.fifoWe i, re := s.fifoRe i }
            = s.doWrite i := by
          simp [SyncFIFO.doWrite, doWrite, writable, fifoWe, hshunt]
        have hfre : s.fifoRe i = i.re := by simp [fifoRe, hRd]
        by_cases hre : i.re = true
        · have hjr : s.fifo.doRead
              { i with we := s.fifoWe i, re := s.fifoRe i } = true := by
            simp [SyncFIFO.doRead, hcr, hfre, hre]
          constructor
          · refine ⟨SyncFIFO.step_inv_core hs.inner _, ?_, ?_⟩
            · intro h1 _
              simp [step, hshunt, hre, hb, hf] at h1
            · intro _ h2
              simp [step, hf, hcr] at h2
          · by_cases hw : s.doWrite i = true
            · have hcs := @SyncFIFO.contents_step_both s.fifo
                { i with we := s.fifoWe i, re := s.fifoRe i } hs.inner hf
                (hjw.trans hw) hjr
              rw [hf] at hcs
              simp [step, contents, doRead, readable, hshunt, hre, hb, hdro,
                hf, hcr, hw, hcs, hq, hq0, queueUpdate]
            · rw [Bool.not_eq_true] at hw
              have hcs := @SyncFIFO.contents_step_read s.fifo
                { i with we := s.fifoWe i, re := s.fifoRe i } hs.inner hf
                (hjw.trans hw) hjr
              rw [hf] at hcs
              simp [step, contents, doRead, readable, hshunt, hre, hb, hdro,
                hf, hcr, hw, hcs, hq, hq0, queueUpdate]
        · rw [Bool.not_eq_true] at hre
          have hjr : s.fifo.doRead
              { i with we := s.fifoWe i, re := s.fifoRe i } = false := by
            simp [SyncFIFO.doRead, hfre, hre]
          have hkeep := @SyncFIFO.dout_step_keep s.fifo
            { i with we := s.fifoWe i, re := s.fifoRe i } hs.inner hf hjr hlv
          have hlev := @SyncFIFO.level_step_no_read s.fifo
            { i with we := s.fifoWe i, re := s.fifoRe i } hf hjr
          constructor
          · refine ⟨SyncFIFO.step_inv_core hs.inner _, ?_, ?_⟩
            · intro _ _
              constructor
              · simp only [step]
                omega
              · simp only [step]
                exact hkeep.symm
            · intro h1 _
              simp [step, hshunt, hre, hb, hf] at h1
          · by_cases hw : s.doWrite i = true
            · have hcs := @SyncFIFO.contents_step_write s.fifo
                { i with we := s.fifoWe i, re := s.fifoRe i } hs.inner hf
                (hjw.trans hw) hjr
              rw [hf] at hcs
              simp [step, contents, doRead, readable, hshunt, hre, hb, hdro,
                hf, hcr, hw, hcs, hq, queueUpdate]
            · rw [Bool.not_eq_true] at hw
              have hcs := @SyncFIFO.step_eval_none s.fifo
                { i with we := s.fifoWe i, re := s.fifoRe i } hf
                (hjw.trans hw) hjr
              rw [hf] at hcs
              simp [step, contents, doRead, readable, hshunt, hre, hb, hdro,
                hf, hcr, hw, hcs, hq, queueUpdate]
      · -- core empty behind a full bypass cell
        rw [Bool.not_eq_true] at hcr
        have hlv0 : s.fifo.level = 0 := SyncFIFO.readable_false_level hcr
        have hq : s.fifo.contents = [] := SyncFIFO.contents_nil hlv0
        have hjr : s.fifo.doRead { i with we := s.fifoWe i, re := s.fifoRe i }
            = false := by
          simp [SyncFIFO.doRead, hcr]
        by_cases hre : i.re = true
        · by_cases hwe : i.we = true
          · -- shunt replaces the consumed bypass element
            have hshunt : s.doShunt i = true := by
              simp [doShunt, readable, hb, hcr, hre, hwe]
            have hjw : s.fifo.doWrite
                { i with we := s.fifoWe i, re := s.fifoRe i } = false := by
              simp [SyncFIFO.doWrite, fifoWe, hshunt]
            have hcs := @SyncFIFO.step_eval_none s.fifo
              { i with we := s.fifoWe i, re := s.fifoRe i } hf hjw hjr
            rw [hf] at hcs
            have hdwT : s.doWrite i = true := by
              simp [doWrite, writable, SyncFIFO.writable, hwe, hlv0]
              omega
            constructor
            · refine ⟨SyncFIFO.step_inv_core hs.inner _, ?_, ?_⟩
              · intro _ h2
                simp [step, hf, hcr] at h2
              · intro h1 _
                simp [step, hshunt, hf] at h1
            · simp [step, contents, doRead, readable, hshunt, hre, hb, hdro,
                hf, hcr, hdwT, hcs, hq, queueUpdate]
          · rw [Bool.not_eq_true] at hwe
            have hshunt : s.doShunt i = false := by simp [doShunt, hwe]
            have hjw : s.fifo.doWrite
                { i with we := s.fifoWe i, re := s.fifoRe i } = false := by
              simp [SyncFIFO.doWrite, fifoWe, hwe]
            have hcs := @SyncFIFO.step_eval_none s.fifo
              { i with we := s.fifoWe i, re := s.fifoRe i } hf hjw hjr
            rw [hf] at hcs
            have hdwF : s.doWrite i = false := by simp [doWrite, hwe]
            constructor
            · refine ⟨SyncFIFO.step_inv_core hs.inner _, ?_, ?_⟩
              · intro _ h2
                simp [step, hf, hcr] at h2
              · intro _ _
                simp [step, hf, hcs, hlv0]
            · simp [step, contents, doRead, readable, hshunt, hre, hb, hdro,
                hf, hcr, hdwF, hcs, hq, queueUpdate]
        · rw [Bool.not_eq_true] at hre
          have hshunt : s.doShunt i = false := by
            simp [doShunt, readable, hb, hre]
          have hjw : s.fifo.doWrite
              { i with we := s.fifoWe i, re := s.fifoRe i } = s.doWrite i := by
            simp [SyncFIFO.doWrite, doWrite, writable, fifoWe, hshunt]
          constructor
          · refine ⟨SyncFIFO.step_inv_core hs.inner _, ?_, ?_⟩
            · intro _ h2
              simp [step, hf, hcr] at h2
            · intro h1 _
              simp [step, hshunt, hre, hb, hf] at h1
          · by_cases hw : s.doWrite i = true
            · have hcs := @SyncFIFO.contents_step_write s.fifo
                { i with we := s.fifoWe i, re := s.fifoRe i } hs.inner hf
                (hjw.trans hw) hjr
              rw [hf] at hcs
              simp [step, contents, doRead, readable, hshunt, hre, hb, hdro,
                hf, hcr, hw, hcs, hq, queueUpdate]
            · rw [Bool.not_eq_true] at hw
              have hcs := @SyncFIFO.step_eval_none s.fifo
                { i with we := s.fifoWe i, re := s.fifoRe i } hf
                (hjw.trans hw) hjr
              rw [hf] at hcs
              simp [step, contents, doRead, readable, hshunt, hre, hb, hdro,
                hf, hcr, hw, hcs, hq, queueUpdate]
  · rw [Bool.not_eq_true] at hb
    by_cases hdro : s.doutReadable = true
    · -- mirror holds the sole copy of the oldest element
      have hRd : s.readable = true := by simp [readable, hb, hdro]
      by_cases hcr : s.fifo.readable = true
      · obtain ⟨hne, hdh⟩ := SyncFIFO.dout_head_core hs.inner hcr
        obtain ⟨q0, qt, hq⟩ : ∃ q0 qt, s.fifo.contents = q0 :: qt := by
          cases hqq : s.fifo.contents with
          | nil => exact absurd hqq hne
          | cons a b => exact ⟨a, b, rfl⟩
        have hq0 : s.fifo.dout = q0 := by rw [hdh, hq, List.headD_cons]
        have hlv : s.fifo.level ≠ 0 := SyncFIFO.readable_true_level hcr
        have hshunt : s.doShunt i = false := by simp [doShunt, hcr]
        have hjw : s.fifo.doWrite { i with we := s.fifoWe i, re := s.fifoRe i }
            = s.doWrite i := by
          simp [SyncFIFO.doWrite, doWrite, writable, fifoWe, hshunt]
        have hfre : s.fifoRe i = i.re := by simp [fifoRe, hRd]
        by_cases hre : i.re = true
        · have hjr : s.fifo.doRead
              { i with we := s.fifoWe i, re := s.fifoRe i } = true := by
            simp [SyncFIFO.doRead, hcr, hfre, hre]
          constructor
          · refine ⟨SyncFIFO.step_inv_core hs.inner _, ?_, ?_⟩
            · intro h1 _
              simp [step, hshunt, hre, hb, hf] at h1
            · intro _ h2
              simp [step, hf, hcr] at h2
          · by_cases hw : s.doWrite i = true
            · have hcs := @SyncFIFO.contents_step_both s.fifo
                { i with we := s.fifoWe i, re := s.fifoRe i } hs.inner hf
                (hjw.trans hw) hjr
              rw [hf] at hcs
              simp [step, contents, doRead, readable, hshunt, hre, hb, hdro,
                hf, hcr, hw, hcs, hq, hq0, queueUpdate]
            · rw [Bool.not_eq_true] at hw
              have hcs := @SyncFIFO.contents_step_read s.fifo
                { i with we := s.fifoWe i, re := s.fifoRe i } hs.inner hf
                (hjw.trans hw) hjr
              rw [hf] at hcs
              simp [step, contents, doRead, readable, hshunt, hre, hb, hdro,
                hf, hcr, hw, hcs, hq, hq0, queueUpdate]
        · -- stalled: the sole copy moves from the mirror into the bypass
          rw [Bool.not_eq_true] at hre
          have hjr : s.fifo.doRead
              { i with we := s.fifoWe i, re := s.fifoRe i } = false := by
            simp [SyncFIFO.doRead, hfre, hre]
          have hkeep := @SyncFIFO.dout_step_keep s.fifo
            { i with we := s.fifoWe i, re := s.fifoRe i } hs.inner hf hjr hlv
          have hlev := @SyncFIFO.level_step_no_read s.fifo
            { i with we := s.fifoWe i, re := s.fifoRe i } hf hjr
          constructor
          · refine ⟨SyncFIFO.step_inv_core hs.inner _, ?_, ?_⟩
            · intro _ _
              constructor
              · simp only [step]
                omega
              · simp only [step]
                exact hkeep.symm
            · intro h1 _
              simp [step, hshunt, hre, hb, hdro, hf] at h1
          · by_cases hw : s.doWrite i = true
            · have hcs := @SyncFIFO.contents_step_write s.fifo
                { i with we := s.fifoWe i, re := s.fifoRe i } hs.inner hf
                (hjw.trans hw) hjr
              rw [hf] at hcs
              simp [step, contents, doRead, readable, hshunt, hre, hb, hdro,
                hf, hcr, hw, hcs, hq, queueUpdate]
            · rw [Bool.not_eq_true] at hw
              have hcs := @SyncFIFO.step_eval_none s.fifo
                { i with we := s.fifoWe i, re := s.fifoRe i } hf
                (hjw.trans hw) hjr
              rw [hf] at hcs
              simp [step, contents, doRead, readable, hshunt, hre, hb, hdro,
                hf, hcr, hw, hcs, hq, queueUpdate]
      · -- core empty, mirror sole
        rw [Bool.not_eq_true] at hcr
        have hlv0 : s.fifo.level = 0 := SyncFIFO.readable_false_level hcr
        have hq : s.fifo.contents = [] := SyncFIFO.contents_nil hlv0
        have hjr : s.fifo.doRead { i with we := s.fifoWe i, re := s.fifoRe i }
            = false := by
          simp [SyncFIFO.doRead, hcr]
        by_cases hre : i.re = true
        · by_cases hwe : i.we = true
          · have hshunt : s.doShunt i = true := by
              simp [doShunt, readable, hb, hdro, hcr, hre, hwe]
            have hjw : s.fifo.doWrite
                { i with we := s.fifoWe i, re := s.fifoRe i } = false := by
              simp [SyncFIFO.doWrite, fifoWe, hshunt]
            have hcs := @SyncFIFO.step_eval_none s.fifo
              { i with we := s.fifoWe i, re := s.fifoRe i } hf hjw hjr
            rw [hf] at hcs
            have hdwT : s.doWrite i = true := by
              simp [doWrite, writable, SyncFIFO.writable, hwe, hlv0]
              omega
            constructor
            · refine ⟨SyncFIFO.step_inv_core hs.inner _, ?_, ?_⟩
              · intro _ h2
                simp [step, hf, hcr] at h2
              · intro h1 _
                simp [step, hshunt, hf] at h1
            · simp [step, contents, doRead, readable, hshunt, hre, hb, hdro,
                hf, hcr, hdwT, hcs, hq, queueUpdate]
          · rw [Bool.not_eq_true] at hwe
            have hshunt : s.doShunt i = false := by simp [doShunt, hwe]
            have hjw : s.fifo.doWrite
                { i with we := s.fifoWe i, re := s.fifoRe i } = false := by
              simp [SyncFIFO.doWrite, fifoWe, hwe]
            have hcs := @SyncFIFO.step_eval_none s.fifo
              { i with we := s.fifoWe i, re := s.fifoRe i } hf hjw hjr
            rw [hf] at hcs
            have hdwF : s.doWrite i = false := by simp [doWrite, hwe]
            constructor
            · refine ⟨SyncFIFO.step_inv_core hs.inner _, ?_, ?_⟩
              · intro _ h2
                simp [step, hf, hcr] at h2
              · intro _ _
                simp [step, hf, hcs, hlv0]
            · simp [step, contents, doRead, readable, hshunt, hre, hb, hdro,
                hf, hcr, hdwF, hcs, hq, queueUpdate]
        · rw [Bool.not_eq_true] at hre
          have hshunt : s.doShunt i = false := by
            simp [doShunt, readable, hb, hdro, hre]
          have hjw : s.fifo.doWrite
              { i with we := s.fifoWe i, re := s.fifoRe i } = s.doWrite i := by
            simp [SyncFIFO.doWrite, doWrite, writable, fifoWe, hshunt]
          constructor
          · refine ⟨SyncFIFO.step_inv_core hs.inner _, ?_, ?_⟩
            · intro _ h2
              simp [step, hf, hcr] at h2
            · intro h1 _
              simp [step, hshunt, hre, hb, hdro, hf] at h1
          · by_cases hw : s.doWrite i = true
            · have hcs := @SyncFIFO.contents_step_write s.fifo
                { i with we := s.fifoWe i, re := s.fifoRe i } hs.inner hf
                (hjw.trans hw) hjr
              rw [hf] at hcs
              simp [step, contents, doRead, readable, hshunt, hre, hb, hdro,
                hf, hcr, hw, hcs, hq, queueUpdate]
            · rw [Bool.not_eq_true] at hw
              have hcs := @SyncFIFO.step_eval_none s.fifo
                { i with we := s.fifoWe i, re := s.fifoRe i } hf
                (hjw.trans hw) hjr
              rw [hf] at hcs
              simp [step, contents, doRead, readable, hshunt, hre, hb, hdro,
                hf, hcr, hw, hcs, hq, queueUpdate]
    · -- wholly empty wrapper: any write shunts
      rw [Bool.not_eq_true] at hdro
      have hlv0 : s.fifo.level = 0 := hs.drain hb hdro
      have hq : s.fifo.contents = [] := SyncFIFO.contents_nil hlv0
      have hcr : s.fifo.readable = false := by simp [SyncFIFO.readable, hlv0]
      have hRd : s.readable = false := by simp [readable, hb, hdro]
      have hjr : s.fifo.doRead { i with we := s.fifoWe i, re := s.fifoRe i }
          = false := by
        simp [SyncFIFO.doRead, hcr]
      have hdrdF : s.doRead i = false := by simp [doRead, hRd]
      by_cases hwe : i.we = true
      · have hshunt : s.doShunt i = true := by
          simp [doShunt, readable, hb, hdro, hcr, hwe]
        have hjw : s.fifo.doWrite
            { i with we := s.fifoWe i, re := s.fifoRe i } = false := by
          simp [SyncFIFO.doWrite, fifoWe, hshunt]
        have hcs := @SyncFIFO.step_eval_none s.fifo
          { i with we := s.fifoWe i, re := s.fifoRe i } hf hjw hjr
        rw [hf] at hcs
        have hdwT : s.doWrite i = true := by
          simp [doWrite, writable, SyncFIFO.writable, hwe, hlv0]
          omega
        constructor
        · refine ⟨SyncFIFO.step_inv_core hs.inner _, ?_, ?_⟩
          · intro _ h2
            simp [step, hf, hcr] at h2
          · intro h1 _
            simp [step, hshunt, hf] at h1
        · simp [step, contents, hshunt, hb, hdro, hf, hcr, hdwT, hdrdF, hcs,
            hq, queueUpdate]
      · rw [Bool.not_eq_true] at hwe
        have hshunt : s.doShunt i = false := by simp [doShunt, hwe]
        have hjw : s.fifo.doWrite
            { i with we := s.fifoWe i, re := s.fifoRe i } = false := by
          simp [SyncFIFO.doWrite, fifoWe, hwe]
        have hcs := @SyncFIFO.step_eval_none s.fifo
          { i with we := s.fifoWe i, re := s.fifoRe i } hf hjw hjr
        rw [hf] at hcs
        have hdwF : s.doWrite i = false := by simp [doWrite, hwe]
        constructor
        · refine ⟨SyncFIFO.step_inv_core hs.inner _, ?_, ?_⟩
          · intro _ h2
            simp [step, hf, hcr] at h2
          · intro _ _
            simp [step, hf, hcs, hlv0]
        · by_cases hre : i.re = true <;>
            simp [step, contents, hshunt, hre, hb, hdro, hf, hcr, hdwF,
              hdrdF, hcs, hq, queueUpdate]

/-- A flush tick empties the relaxed wrapper and restores the invariant. -/
theorem SyncFIFORelaxed.step_flush {s : SyncFIFORelaxed} (hs : s.Inv)
    (i : FifoInput) (hf : i.flush = true) :
    (s.step i).Inv ∧ (s.step i).contents = [] := by
  have hcs := @SyncFIFO.contents_step_flush s.fifo
    { i with we := s.fifoWe i, re := s.fifoRe i } hf
  rw [hf] at hcs
  have hlv : (s.fifo.step { i with we := s.fifoWe i, re := s.fifoRe i }).level
      = 0 := by
    simp [SyncFIFO.step, hf]
  constructor
  · refine ⟨SyncFIFO.step_inv_core hs.inner _, ?_, ?_⟩
    · intro h1 _
      simp [step, hf] at h1
    · intro _ _
      simpa [step] using hlv
  · simp [contents, step, hf, hcs]

inductive SyncFIFORelaxed.Reachable (depth : Nat) : SyncFIFORelaxed → Prop
  | refl : SyncFIFORelaxed.Reachable depth (SyncFIFORelaxed.init depth)
  | tail {s : SyncFIFORelaxed} (i : FifoInput) :
      SyncFIFORelaxed.Reachable depth s
        → SyncFIFORelaxed.Reachable depth (s.step i)

theorem SyncFIFORelaxed.init_inv_relaxed {depth : Nat} (hd : 0 < depth) :
    (SyncFIFORelaxed.init depth).Inv := by
  refine ⟨⟨hd, by simp [init, SyncFIFO.init], by simpa [init, SyncFIFO.init]
    using hd, by simpa [init, SyncFIFO.init] using hd,
    by simp [init, SyncFIFO.init], by simp [init, SyncFIFO.init]⟩, ?_, ?_⟩
  · intro h1 _
    simp [init] at h1
  · intro _ _
    simp [init, SyncFIFO.init]

theorem SyncFIFORelaxed.reachable_inv_relaxed {depth : Nat} (hd : 0 < depth)
    {s : SyncFIFORelaxed} (h : SyncFIFORelaxed.Reachable depth s) : s.Inv := by
  induction h with
  | refl => exact SyncFIFORelaxed.init_inv_relaxed hd
  | tail i hs ih =>
    by_cases hf : i.flush = true
    · exact (SyncFIFORelaxed.step_flush ih i hf).1
    · exact (SyncFIFORelaxed.step_good ih i (by simpa using hf)).1

/-- Modelled from the spec: the Gray-coded pointer unit
(`migen.genlib.cdc.GrayCounter` is not under src/).  The counter is held in
binary (`q_binary`) and exposes the reflected-binary reading
`q = q_binary ^ (q_binary >> 1)`, in which successive values differ in
exactly one bit. -/
def grayEncode (x : Nat) : Nat := x ^^^ (x / 2)

theorem xor_div_two (x y : Nat) : (x ^^^ y) / 2 = x / 2 ^^^ y / 2 := by
  apply Nat.eq_of_testBit_eq
  intro i
  simp [Nat.testBit_div_two, Nat.testBit_xor]

theorem xor_eq_zero_iff (x y : Nat) : x ^^^ y = 0 ↔ x = y := by
  constructor
  · intro h
    apply Nat.eq_of_testBit_eq
    intro i
    have h2 := congrArg (fun t => t.testBit i) h
    simp only [Nat.testBit_xor, Nat.zero_testBit] at h2
    cases hx : x.testBit i <;> cases hy : y.testBit i <;> simp_all
  · intro h
    rw [h, Nat.xor_self]

theorem xor_xor_xor_comm (a b c d : Nat) :
    (a ^^^ b) ^^^ (c ^^^ d) = (a ^^^ c) ^^^ (b ^^^ d) := by
  apply Nat.eq_of_testBit_eq
  intro i
  simp only [Nat.testBit_xor]
  cases a.testBit i <;> cases b.testBit i <;> cases c.testBit i <;>
    cases d.testBit i <;> rfl

theorem grayEncode_xor (x y : Nat) :
    grayEncode x ^^^ grayEncode y = grayEncode (x ^^^ y) := by
  unfold grayEncode
  rw [xor_div_two, xor_xor_xor_comm]

/-- The Gray encoding is injective on all of `Nat`. -/
theorem grayEncode_inj {x y : Nat} (h : grayEncode x = grayEncode y) :
    x = y := by
  have h0 : grayEncode x ^^^ grayEncode y = 0 := by rw [h, Nat.xor_self]
  rw [grayEncode_xor] at h0
  have hz : (x ^^^ y) ^^^ (x ^^^ y) / 2 = 0 := h0
  have hz2 : x ^^^ y = (x ^^^ y) / 2 := (xor_eq_zero_iff _ _).mp hz
  have hz0 : x ^^^ y = 0 := by
    by_contra hne
    have := Nat.div_lt_self (Nat.pos_of_ne_zero hne) (by norm_num : 1 < 2)
    omega
  exact (xor_eq_zero_iff x y).mp hz0

theorem bool_ne_iff_xor {a b : Bool} : a ≠ b ↔ (a ^^ b) = true := by
  cases a <;> cases b <;> simp

theorem mod_two_pow_eq_iff (x y k : Nat) :
    x % 2 ^ k = y % 2 ^ k ↔ ∀ j, j < k → x.testBit j = y.testBit j := by
  constructor
  · intro h j hj
    have h2 := congrArg (fun t => t.testBit j) h
    simpa [Nat.testBit_mod_two_pow, hj] using h2
  · intro h
    apply Nat.eq_of_testBit_eq
    intro j
    rw [Nat.testBit_mod_two_pow, Nat.testBit_mod_two_pow]
    by_cases hj : j < k
    · simp [hj, h j hj]
    · simp [hj]

/-- With fewer low bits than the modulus, equal windows are equal values. -/
theorem modeq_window_iff {M a b : Nat} (hab : a ≤ b) (hw : b - a < M) :
    a % M = b % M ↔ a = b := by
  constructor
  · intro h
    obtain ⟨d, rfl⟩ : ∃ d, b = a + d := ⟨b - a, by omega⟩
    have h2 : 0 % M = d % M :=
      Nat.ModEq.add_left_cancel' a (by simpa using h)
    rw [Nat.zero_mod] at h2
    have h3 : d % M = d := Nat.mod_eq_of_lt (by omega)
    omega
  · intro h
    rw [h]

/-- Adding a fresh top bit is the same as XOR-ing it in. -/
theorem two_pow_add_eq_xor {n r : Nat} (hr : r < 2 ^ n) :
    2 ^ n + r = 2 ^ n ^^^ r := by
  apply Nat.eq_of_testBit_eq
  intro k
  rcases lt_trichotomy k n with hk | hk | hk
  · rw [Nat.testBit_two_pow_add_gt hk, Nat.testBit_xor,
      Nat.testBit_two_pow_of_ne (by omega), Bool.false_xor]
  · subst hk
    rw [Nat.testBit_two_pow_add_eq, Nat.testBit_xor, Nat.testBit_two_pow_self,
      Nat.testBit_lt_two_pow hr, Bool.xor_false]
    rfl
  · have h1 : 2 ^ n + r < 2 ^ k := by
      have : 2 ^ (n + 1) ≤ 2 ^ k := Nat.pow_le_pow_right (by norm_num) (by omega)
      have := Nat.pow_succ 2 n
      omega
    rw [Nat.testBit_eq_false_of_lt h1, Nat.testBit_xor,
      Nat.testBit_two_pow_of_ne (by omega),
      Nat.testBit_eq_false_of_lt (by omega), Bool.xor_false]

/-- XOR-ing in the top bit inside a `2^(n+1)` window is a half-window
rotation. -/
theorem xor_two_pow_window {n a b : Nat} (hab : a ≤ b) (hw : b ≤ a + 2 ^ n) :
    (a % 2 ^ (n + 1)) ^^^ (b % 2 ^ (n + 1)) = 2 ^ n ↔ b = a + 2 ^ n := by
  have hM : (0:Nat) < 2 ^ (n + 1) := Nat.pos_pow_of_pos _ (by norm_num)
  have hMeq : (2:Nat) ^ (n + 1) = 2 ^ n + 2 ^ n := by
    rw [Nat.pow_succ]
    omega
  have hforward : (a % 2 ^ (n + 1)) ^^^ ((a + 2 ^ n) % 2 ^ (n + 1)) = 2 ^ n := by
    have hr : a % 2 ^ (n + 1) < 2 ^ (n + 1) := Nat.mod_lt _ hM
    have hsplit : (a + 2 ^ n) % 2 ^ (n + 1)
        = (a % 2 ^ (n + 1) + 2 ^ n) % 2 ^ (n + 1) := by
      rw [Nat.mod_add_mod]
    rcases Nat.lt_or_ge (a % 2 ^ (n + 1)) (2 ^ n) with hcase | hcase
    · have h1 : (a % 2 ^ (n + 1) + 2 ^ n) % 2 ^ (n + 1)
          = a % 2 ^ (n + 1) + 2 ^ n := Nat.mod_eq_of_lt (by omega)
      rw [hsplit, h1, Nat.add_comm (a % 2 ^ (n + 1)) (2 ^ n),
        two_pow_add_eq_xor hcase, Nat.xor_comm (2 ^ n) (a % 2 ^ (n + 1)),
        ← Nat.xor_assoc, Nat.xor_self, Nat.zero_xor]
    · obtain ⟨t, ht⟩ : ∃ t, a % 2 ^ (n + 1) = 2 ^ n + t :=
        ⟨a % 2 ^ (n + 1) - 2 ^ n, by omega⟩
      have htlt : t < 2 ^ n := by omega
      have hmod : (a % 2 ^ (n + 1) + 2 ^ n) % 2 ^ (n + 1) = t := by
        rw [ht]
        have h2 : 2 ^ n + t + 2 ^ n = 2 ^ (n + 1) + t := by omega
        rw [h2, Nat.add_mod_left, Nat.mod_eq_of_lt (by omega)]
      rw [hsplit, hmod, ht, two_pow_add_eq_xor htlt, Nat.xor_assoc,
        Nat.xor_self, Nat.xor_zero]
  constructor
  · intro h
    have hb : b % 2 ^ (n + 1) = (a + 2 ^ n) % 2 ^ (n + 1) := by
      have h1 : (a % 2 ^ (n + 1)) ^^^ ((a % 2 ^ (n + 1)) ^^^ (b % 2 ^ (n + 1)))
          = (a % 2 ^ (n + 1)) ^^^ ((a % 2 ^ (n + 1)) ^^^ ((a + 2 ^ n) % 2 ^ (n + 1))) := by
        rw [h, hforward]
      rwa [← Nat.xor_assoc, Nat.xor_self, Nat.zero_xor, ← Nat.xor_assoc,
        Nat.xor_self, Nat.zero_xor] at h1
    exact (modeq_window_iff hw (by omega)).mp hb
  · intro h
    rw [h]
    exact hforward

/-- The Gray-code full pattern (top two bits differ, low bits equal)
characterizes an XOR distance of exactly the half-window `2^n`. -/
theorem gray_full_pattern {n x y : Nat} (hn : 1 ≤ n)
    (hx : x < 2 ^ (n + 1)) (hy : y < 2 ^ (n + 1)) :
    ((grayEncode x).testBit n ≠ (grayEncode y).testBit n
        ∧ (grayEncode x).testBit (n - 1) ≠ (grayEncode y).testBit (n - 1)
        ∧ grayEncode x % 2 ^ (n - 1) = grayEncode y % 2 ^ (n - 1))
      ↔ x ^^^ y = 2 ^ n := by
  have hgx : grayEncode x < 2 ^ (n + 1) :=
    Nat.xor_lt_two_pow hx (lt_of_le_of_lt (Nat.div_le_self _ _) hx)
  have hgy : grayEncode y < 2 ^ (n + 1) :=
    Nat.xor_lt_two_pow hy (lt_of_le_of_lt (Nat.div_le_self _ _) hy)
  have hg2 : grayEncode (2 ^ n) = 2 ^ n ^^^ 2 ^ (n - 1) := by
    unfold grayEncode
    congr 1
    obtain ⟨m, rfl⟩ : ∃ m, n = m + 1 := ⟨n - 1, by omega⟩
    rw [Nat.pow_succ, Nat.add_sub_cancel]
    exact Nat.mul_div_cancel _ (by norm_num)
  constructor
  · rintro ⟨h1, h2, h3⟩
    apply grayEncode_inj
    rw [← grayEncode_xor, hg2]
    apply Nat.eq_of_testBit_eq
    intro k
    rw [Nat.testBit_xor, Nat.testBit_xor]
    rcases lt_trichotomy k (n - 1) with hk | hk | hk
    · have hlow := (mod_two_pow_eq_iff _ _ _).mp h3 k hk
      rw [hlow, Bool.xor_self, Nat.testBit_two_pow_of_ne (by omega : n ≠ k),
        Nat.testBit_two_pow_of_ne (by omega : n - 1 ≠ k), Bool.xor_self]
    · subst hk
      rw [Nat.testBit_two_pow_of_ne (by omega : n ≠ n - 1),
        Nat.testBit_two_pow_self, Bool.false_xor, bool_ne_iff_xor.mp h2]
    · rcases Nat.lt_or_ge k (n + 1) with hk2 | hk2
      · have hkn : k = n := by omega
        subst hkn
        rw [Nat.testBit_two_pow_self,
          Nat.testBit_two_pow_of_ne (by omega : k - 1 ≠ k), Bool.xor_false,
          bool_ne_iff_xor.mp h1]
      · have hbx : (grayEncode x).testBit k = false :=
          Nat.testBit_eq_false_of_lt
            (lt_of_lt_of_le hgx (Nat.pow_le_pow_right (by norm_num) hk2))
        have hby : (grayEncode y).testBit k = false :=
          Nat.testBit_eq_false_of_lt
            (lt_of_lt_of_le hgy (Nat.pow_le_pow_right (by norm_num) hk2))
        rw [hbx, hby, Nat.testBit_two_pow_of_ne (by omega : n ≠ k),
          Nat.testBit_two_pow_of_ne (by omega : n - 1 ≠ k)]
  · intro h
    have hzval : grayEncode x ^^^ grayEncode y = 2 ^ n ^^^ 2 ^ (n - 1) := by
      rw [grayEncode_xor, h, hg2]
    refine ⟨?_, ?_, ?_⟩
    · rw [bool_ne_iff_xor]
      have hb := congrArg (fun t => t.testBit n) hzval
      simpa [Nat.testBit_xor, Nat.testBit_two_pow_self,
        Nat.testBit_two_pow_of_ne (by omega : n - 1 ≠ n)] using hb
    · rw [bool_ne_iff_xor]
      have hb := congrArg (fun t => t.testBit (n - 1)) hzval
      simpa [Nat.testBit_xor, Nat.testBit_two_pow_self,
        Nat.testBit_two_pow_of_ne (by omega : n ≠ n - 1)] using hb
    · rw [mod_two_pow_eq_iff]
      intro j hj
      have hb := congrArg (fun t => t.testBit j) hzval
      simp only [Nat.testBit_xor,
        Nat.testBit_two_pow_of_ne (by omega : n ≠ j),
        Nat.testBit_two_pow_of_ne (by omega : n - 1 ≠ j),
        Bool.xor_false] at hb
      cases hbx : (grayEncode x).testBit j <;>
        cases hby : (grayEncode y).testBit j <;> simp_all

/-- The `AsyncFIFO` combinational `writable` expression from fifo.py
lines 284-292, over the two Gray words `p` (local produce Gray pointer) and
`c` (resynchronized consume Gray pointer) of `n+1` bits:
`p[-1]` is bit `n`, `p[-2]` is bit `n-1`, `p[:-2]` is `p mod 2^(n-1)`;
the comparison is special-cased when `depth_bits == 1`. -/
def asyncWritable (n p c : Nat) : Bool :=
  if n = 1 then
    (p.testBit n == c.testBit n) || (p.testBit (n - 1) == c.testBit (n - 1))
  else
    (p.testBit n == c.testBit n) || (p.testBit (n - 1) == c.testBit (n - 1))
      || (p % 2 ^ (n - 1) != c % 2 ^ (n - 1))

/-- The full-detection pattern exactly as the spec words it: equal top bit
with differing second-top bit while the remaining low bits are equal (no low
bits exist in the two-bit case). -/
def specFullPattern (n p c : Nat) : Prop :=
  p.testBit n = c.testBit n ∧ p.testBit (n - 1) ≠ c.testBit (n - 1)
    ∧ (n = 1 ∨ p % 2 ^ (n - 1) = c % 2 ^ (n - 1))

instance (n p c : Nat) : Decidable (specFullPattern n p c) := by
  unfold specFullPattern
  infer_instance

/-- The `AsyncFIFO` module state.  The storage array and the comparison
logic follow fifo.py lines 259-309.  Modelled from the spec: the two
`GrayCounter` submodules and the two 2-stage `MultiReg` resynchronizers
(`migen.genlib.cdc` is not under src/) — each counter is carried here as its
unbounded binary count (the hardware registers hold the `depth_bits+1`-bit
Gray reading, recovered below as `grayEncode (count % 2^(depth_bits+1))`,
which is information-preserving since `grayEncode` is injective), and each
resynchronizer as two registers sampled in the destination context's tick.
`writes` is the ghost log of committed writes used to state ordering. -/
structure AsyncFIFO where
  depthBits : Nat
  mem : List Nat
  produce : Nat
  consume : Nat
  produceShadow1 : Nat
  produceShadow2 : Nat
  consumeShadow1 : Nat
  consumeShadow2 : Nat
  dout : Nat
  writes : List Nat
deriving DecidableEq, Repr

def AsyncFIFO.depth (s : AsyncFIFO) : Nat := 2 ^ s.depthBits

/-- Gray reading of the write-side produce counter (`produce.q`). -/
def AsyncFIFO.produceGray (s : AsyncFIFO) : Nat :=
  grayEncode (s.produce % 2 ^ (s.depthBits + 1))

/-- Gray reading of the read-side consume counter (`consume.q`). -/
def AsyncFIFO.consumeGray (s : AsyncFIFO) : Nat :=
  grayEncode (s.consume % 2 ^ (s.depthBits + 1))

/-- `produce_rdomain`: produce Gray pointer after both resampling stages. -/
def AsyncFIFO.produceRdomain (s : AsyncFIFO) : Nat :=
  grayEncode (s.produceShadow2 % 2 ^ (s.depthBits + 1))

/-- `consume_wdomain`: consume Gray pointer after both resampling stages. -/
def AsyncFIFO.consumeWdomain (s : AsyncFIFO) : Nat :=
  grayEncode (s.consumeShadow2 % 2 ^ (s.depthBits + 1))

def AsyncFIFO.writable (s : AsyncFIFO) : Bool :=
  asyncWritable s.depthBits s.produceGray s.consumeWdomain

/-- `self.readable.eq(consume.q != produce_rdomain)`. -/
def AsyncFIFO.readable (s : AsyncFIFO) : Bool :=
  s.consumeGray != s.produceRdomain

/-- One tick of the write clock domain: `produce.ce = writable & we`; the
write port stores `din` at `produce.q_binary[:-1]` when `ce`; the consume
shadow pipe advances one stage. -/
def AsyncFIFO.writeStep (s : AsyncFIFO) (we : Bool) (din : Nat) : AsyncFIFO :=
  let ce := s.writable && we
  { s with
    mem := if ce then s.mem.set (s.produce % s.depth) din else s.mem
    produce := if ce then s.produce + 1 else s.produce
    consumeShadow1 := s.consume
    consumeShadow2 := s.consumeShadow1
    writes := if ce then s.writes ++ [din] else s.writes }

/-- One tick of the read clock domain: `consume.ce = readable & re`; the
registered read port latches `mem[consume.q_next_binary[:-1]]` into `dout`;
the produce shadow pipe advances one stage. -/
def AsyncFIFO.readStep (s : AsyncFIFO) (re : Bool) : AsyncFIFO :=
  let ce := s.readable && re
  let cNext := if ce then s.consume + 1 else s.consume
  { s with
    consume := cNext
    dout := s.mem.getD (cNext % s.depth) 0
    produceShadow1 := s.produce
    produceShadow2 := s.produceShadow1 }

def AsyncFIFO.init (n : Nat) : AsyncFIFO :=
  ⟨n, List.replicate (2 ^ n) 0, 0, 0, 0, 0, 0, 0, 0, []⟩

/-- States reachable from reset under any interleaving of write-domain and
read-domain ticks (the two domains progress at arbitrary unrelated rates). -/
inductive AsyncFIFO.Reachable (n : Nat) : AsyncFIFO → Prop
  | refl : AsyncFIFO.Reachable n (AsyncFIFO.init n)
  | wtick {s : AsyncFIFO} (we : Bool) (din : Nat) :
      AsyncFIFO.Reachable n s → AsyncFIFO.Reachable n (s.writeStep we din)
  | rtick {s : AsyncFIFO} (re : Bool) :
      AsyncFIFO.Reachable n s → AsyncFIFO.Reachable n (s.readStep re)

/-- Committed-but-unread elements: the suffix of the write log that the read
side has not yet acknowledged. -/
def AsyncFIFO.contents (s : AsyncFIFO) : List Nat := s.writes.drop s.consume

/-- Cross-domain invariant: the shadow pointers are stale (never ahead),
occupancy is bounded by the conservative full detection, the live region of
the storage array holds the logged writes, and the registered `dout` is the
oldest unread element whenever the read side can see data. -/
structure AsyncFIFO.Inv (s : AsyncFIFO) : Prop where
  nPos : 1 ≤ s.depthBits
  memLen : s.mem.length = 2 ^ s.depthBits
  writesLen : s.writes.length = s.produce
  cLePs2 : s.consume ≤ s.produceShadow2
  ps2LePs1 : s.produceShadow2 ≤ s.produceShadow1
  ps1LeP : s.produceShadow1 ≤ s.produce
  cs2LeCs1 : s.consumeShadow2 ≤ s.consumeShadow1
  cs1LeC : s.consumeShadow1 ≤ s.consume
  bound : s.produce ≤ s.consumeShadow2 + 2 ^ s.depthBits
  memSpec : ∀ j, s.consume ≤ j → j < s.produce →
    s.mem.getD (j % 2 ^ s.depthBits) 0 = s.writes.getD j 0
  doutSpec : s.consume < s.produceShadow2 → s.dout = s.writes.getD s.consume 0

theorem AsyncFIFO.readable_iff {s : AsyncFIFO} (hs : s.Inv) :
    s.readable = true ↔ s.consume < s.produceShadow2 := by
  have h2n : (0:Nat) < 2 ^ s.depthBits := Nat.pos_pow_of_pos _ (by norm_num)
  have hMeq : (2:Nat) ^ (s.depthBits + 1) = 2 ^ s.depthBits + 2 ^ s.depthBits := by
    rw [Nat.pow_succ]
    omega
  have hwin : s.produceShadow2 - s.consume < 2 ^ (s.depthBits + 1) := by
    have h1 := hs.cLePs2
    have h2 := hs.ps2LePs1
    have h3 := hs.ps1LeP
    have h4 := hs.bound
    have h5 := hs.cs2LeCs1
    have h6 := hs.cs1LeC
    omega
  rw [readable, consumeGray, produceRdomain, bne_iff_ne, ne_eq]
  constructor
  · intro h
    have hne : s.consume ≠ s.produceShadow2 := by
      intro he
      exact h (by rw [he])
    have := hs.cLePs2
    omega
  · intro h heq
    have h2 := grayEncode_inj heq
    have h3 := (modeq_window_iff hs.cLePs2 hwin).mp h2
    omega

theorem AsyncFIFO.notWritable_iff {s : AsyncFIFO} (hs : s.Inv) :
    s.writable = false
      ↔ s.produce = s.consumeShadow2 + 2 ^ s.depthBits := by
  have hn := hs.nPos
  have hM : (0:Nat) < 2 ^ (s.depthBits + 1) := Nat.pos_pow_of_pos _ (by norm_num)
  have hx : s.produce % 2 ^ (s.depthBits + 1) < 2 ^ (s.depthBits + 1) :=
    Nat.mod_lt _ hM
  have hy : s.consumeShadow2 % 2 ^ (s.depthBits + 1) < 2 ^ (s.depthBits + 1) :=
    Nat.mod_lt _ hM
  have hle : s.consumeShadow2 ≤ s.produce := by
    have h1 := hs.cs2LeCs1
    have h2 := hs.cs1LeC
    have h3 := hs.cLePs2
    have h4 := hs.ps2LePs1
    have h5 := hs.ps1LeP
    omega
  have hpat := gray_full_pattern hn hx hy
  have hwin := xor_two_pow_window hle hs.bound
  have hpw : s.writable = false ↔
      ((s.produceGray.testBit s.depthBits
          ≠ s.consumeWdomain.testBit s.depthBits)
        ∧ (s.produceGray.testBit (s.depthBits - 1)
          ≠ s.consumeWdomain.testBit (s.depthBits - 1))
        ∧ s.produceGray % 2 ^ (s.depthBits - 1)
          = s.consumeWdomain % 2 ^ (s.depthBits - 1)) := by
    by_cases h1 : s.depthBits = 1
    · simp [writable, asyncWritable, h1, Nat.mod_one]
    · simp [writable, asyncWritable, h1]
      tauto
  rw [hpw]
  have hgchain :
      ((s.produceGray.testBit s.depthBits
          ≠ s.consumeWdomain.testBit s.depthBits)
        ∧ (s.produceGray.testBit (s.depthBits - 1)
          ≠ s.consumeWdomain.testBit (s.depthBits - 1))
        ∧ s.produceGray % 2 ^ (s.depthBits - 1)
          = s.consumeWdomain % 2 ^ (s.depthBits - 1))
      ↔ (s.produce % 2 ^ (s.depthBits + 1))
          ^^^ (s.consumeShadow2 % 2 ^ (s.depthBits + 1)) = 2 ^ s.depthBits :=
    hpat
  rw [hgchain, Nat.xor_comm, hwin]

theorem mod_ne_of_window {M a b : Nat} (h1 : a < b) (h2 : b - a < M) :
    a % M ≠ b % M := by
  intro h
  have h3 := (modeq_window_iff h1.le h2).mp h
  omega

/-- Write-domain tick preserves the cross-domain invariant. -/
theorem AsyncFIFO.writeStep_inv {s : AsyncFIFO} (hs : s.Inv) (we : Bool)
    (din : Nat) : (s.writeStep we din).Inv := by
  have h2n : (0:Nat) < 2 ^ s.depthBits := Nat.pos_pow_of_pos _ (by norm_num)
  by_cases hce : (s.writable && we) = true
  · have hwr : s.writable = true := by
      simp only [Bool.and_eq_true] at hce
      exact hce.1
    have hfull : s.produce ≠ s.consumeShadow2 + 2 ^ s.depthBits := by
      intro h
      have h2 := (AsyncFIFO.notWritable_iff hs).mpr h
      rw [hwr] at h2
      simp at h2
    have hplt : s.produce < s.consumeShadow2 + 2 ^ s.depthBits := by
      have := hs.bound
      omega
    refine ⟨hs.nPos, ?_, ?_, hs.cLePs2, hs.ps2LePs1, ?_, ?_, ?_, ?_, ?_, ?_⟩
    · simp [writeStep, hce, List.length_set, hs.memLen]
    · simp [writeStep, hce, hs.writesLen]
    · simp only [writeStep, hce, if_true]
      have := hs.ps1LeP
      omega
    · simp only [writeStep]
      exact hs.cs1LeC
    · simp only [writeStep]
      exact le_refl _
    · simp only [writeStep, hce, if_true]
      have h1 := hs.cs2LeCs1
      omega
    · intro j hj1 hj2
      simp only [writeStep, depth, hce, if_true] at hj1 hj2 ⊢
      have hcLe : s.consumeShadow2 ≤ s.consume := le_trans hs.cs2LeCs1 hs.cs1LeC
      rcases Nat.lt_or_ge j s.produce with hj3 | hj3
      · -- old slot, untouched by the new write
        have hne : j % 2 ^ s.depthBits ≠ s.produce % 2 ^ s.depthBits :=
          mod_ne_of_window hj3 (by omega)
        rw [List.getD_eq_getElem?_getD,
          List.getElem?_set_ne (Ne.symm hne),
          ← List.getD_eq_getElem?_getD, hs.memSpec j hj1 hj3,
          List.getD_append _ _ _ j (by rw [hs.writesLen]; omega)]
      · -- the freshly written slot
        have hj4 : j = s.produce := by omega
        subst hj4
        have hidx : s.produce % 2 ^ s.depthBits < s.mem.length := by
          rw [hs.memLen]
          exact Nat.mod_lt _ h2n
        rw [List.getD_eq_getElem?_getD, List.getElem?_set_self hidx,
          List.getD_eq_getElem?_getD, ← hs.writesLen,
          List.getElem?_concat_length]
    · intro h
      simp only [writeStep, hce, if_true] at h ⊢
      rw [hs.doutSpec h, List.getD_eq_getElem?_getD,
        List.getD_eq_getElem?_getD,
        List.getElem?_append_left (by
          rw [hs.writesLen]
          have h2 := hs.ps2LePs1
          have h3 := hs.ps1LeP
          omega)]
  · rw [Bool.not_eq_true] at hce
    refine ⟨hs.nPos, ?_, ?_, hs.cLePs2, hs.ps2LePs1, ?_, ?_, ?_, ?_, ?_, ?_⟩
    · simp [writeStep, hce, hs.memLen]
    · simp [writeStep, hce, hs.writesLen]
    · simp only [writeStep, hce, Bool.false_eq_true, if_false]
      exact hs.ps1LeP
    · simp only [writeStep]
      exact hs.cs1LeC
    · simp only [writeStep]
      exact le_refl _
    · simp only [writeStep, hce, Bool.false_eq_true, if_false]
      have h1 := hs.cs2LeCs1
      have h2 := hs.bound
      omega
    · intro j hj1 hj2
      simp only [writeStep, hce, Bool.false_eq_true, if_false] at hj2 ⊢
      exact hs.memSpec j hj1 hj2
    · intro h
      simp only [writeStep, hce, Bool.false_eq_true, if_false] at h ⊢
      exact hs.doutSpec h

/-- Read-domain tick preserves the cross-domain invariant. -/
theorem AsyncFIFO.readStep_inv {s : AsyncFIFO} (hs : s.Inv) (re : Bool) :
    (s.readStep re).Inv := by
  by_cases hce : (s.readable && re) = true
  · have hrd : s.readable = true := by
      simp only [Bool.and_eq_true] at hce
      exact hce.1
    have hlt : s.consume < s.produceShadow2 := (AsyncFIFO.readable_iff hs).mp hrd
    refine ⟨hs.nPos, hs.memLen, hs.writesLen, ?_, ?_, ?_, hs.cs2LeCs1, ?_, ?_,
      ?_, ?_⟩
    · simp only [readStep, hce, if_true]
      have h1 := hs.ps2LePs1
      omega
    · simp only [readStep]
      exact hs.ps1LeP
    · simp only [readStep]
      exact le_refl _
    · simp only [readStep, hce, if_true]
      have h1 := hs.cs1LeC
      omega
    · simp only [readStep]
      exact hs.bound
    · intro j hj1 hj2
      simp only [readStep, hce, if_true] at hj1 hj2 ⊢
      exact hs.memSpec j (by omega) hj2
    · intro h
      simp only [readStep, depth, hce, if_true] at h ⊢
      have h1 := hs.ps1LeP
      exact hs.memSpec (s.consume + 1) (by omega) (by omega)
  · rw [Bool.not_eq_true] at hce
    refine ⟨hs.nPos, hs.memLen, hs.writesLen, ?_, ?_, ?_, hs.cs2LeCs1, ?_, ?_,
      ?_, ?_⟩
    · simp only [readStep, hce, Bool.false_eq_true, if_false]
      have h1 := hs.cLePs2
      have h2 := hs.ps2LePs1
      omega
    · simp only [readStep]
      exact hs.ps1LeP
    · simp only [readStep]
      exact le_refl _
    · simp only [readStep, hce, Bool.false_eq_true, if_false]
      exact hs.cs1LeC
    · simp only [readStep]
      exact hs.bound
    · intro j hj1 hj2
      simp only [readStep, hce, Bool.false_eq_true, if_false] at hj1 hj2 ⊢
      exact hs.memSpec j hj1 hj2
    · intro h
      simp only [readStep, depth, hce, Bool.false_eq_true, if_false] at h ⊢
      have h1 := hs.ps1LeP
      exact hs.memSpec s.consume (le_refl _) (by omega)

theorem AsyncFIFO.init_inv_async {n : Nat} (hn : 1 ≤ n) : (AsyncFIFO.init n).Inv := by
  refine ⟨hn, by simp [init], by simp [init], le_refl _, le_refl _, le_refl _,
    le_refl _, le_refl _, by simp [init], ?_, ?_⟩
  · intro j hj1 hj2
    simp [init] at hj2
  · intro h
    simp [init] at h

theorem AsyncFIFO.reachable_inv_async {n : Nat} (hn : 1 ≤ n) {s : AsyncFIFO}
    (h : AsyncFIFO.Reachable n s) : s.Inv := by
  induction h with
  | refl => exact AsyncFIFO.init_inv_async hn
  | wtick we din hs ih => exact AsyncFIFO.writeStep_inv ih we din
  | rtick re hs ih => exact AsyncFIFO.readStep_inv ih re

/-- Cross-domain FWFT: whenever the read side sees `readable`, the
registered `dout` already holds the oldest committed-but-unread element. -/
theorem AsyncFIFO.dout_head_async {s : AsyncFIFO} (hs : s.Inv)
    (hr : s.readable = true) :
    s.contents ≠ [] ∧ s.dout = s.contents.headD 0 := by
  have hlt := (AsyncFIFO.readable_iff hs).mp hr
  have hlen : s.consume < s.writes.length := by
    rw [hs.writesLen]
    have h1 := hs.ps2LePs1
    have h2 := hs.ps1LeP
    omega
  constructor
  · rw [contents]
    intro h
    rw [List.drop_eq_nil_iff] at h
    omega
  · rw [hs.doutSpec hlt, contents, List.headD_eq_head?, List.head?_drop,
      List.getD_eq_getElem?_getD]

inductive SyncFIFOBuffered.Reachable (depth : Nat) : SyncFIFOBuffered → Prop
  | refl : SyncFIFOBuffered.Reachable depth (SyncFIFOBuffered.init depth)
  | tail {s : SyncFIFOBuffered} (i : FifoInput) :
      SyncFIFOBuffered.Reachable depth s
        → SyncFIFOBuffered.Reachable depth (s.step i)

theorem SyncFIFOBuffered.reachable_inv_buffered {depth : Nat} (hd : 0 < depth)
    {s : SyncFIFOBuffered} (h : SyncFIFOBuffered.Reachable depth s) :
    s.fifo.fifo.Inv := by
  induction h with
  | refl =>
    exact ⟨hd, by simp [SyncFIFOBuffered.init, SyncFIFOClassic.init,
      SyncFIFO.init], by simpa [SyncFIFOBuffered.init, SyncFIFOClassic.init,
      SyncFIFO.init] using hd, by simpa [SyncFIFOBuffered.init,
      SyncFIFOClassic.init, SyncFIFO.init] using hd,
      by simp [SyncFIFOBuffered.init, SyncFIFOClassic.init, SyncFIFO.init],
      by simp [SyncFIFOBuffered.init, SyncFIFOClassic.init, SyncFIFO.init]⟩
  | tail i hs ih => exact SyncFIFOBuffered.step_inv_buffered ih i

def SyncFIFOBuffered.run (s : SyncFIFOBuffered) (l : List FifoInput) :
    SyncFIFOBuffered :=
  runG SyncFIFOBuffered.step s l

def SyncFIFOBuffered.runCommits (s : SyncFIFOBuffered) (l : List FifoInput) :
    List Nat :=
  runCommitsG SyncFIFOBuffered.step SyncFIFOBuffered.doWrite s l

def SyncFIFOBuffered.runPops (s : SyncFIFOBuffered) (l : List FifoInput) :
    List Nat :=
  runOutputsG SyncFIFOBuffered.step SyncFIFOBuffered.doRead
    SyncFIFOBuffered.dout s l

def SyncFIFORelaxed.run (s : SyncFIFORelaxed) (l : List FifoInput) :
    SyncFIFORelaxed :=
  runG SyncFIFORelaxed.step s l

def SyncFIFORelaxed.runCommits (s : SyncFIFORelaxed) (l : List FifoInput) :
    List Nat :=
  runCommitsG SyncFIFORelaxed.step SyncFIFORelaxed.doWrite s l

def SyncFIFORelaxed.runPops (s : SyncFIFORelaxed) (l : List FifoInput) :
    List Nat :=
  runOutputsG SyncFIFORelaxed.step SyncFIFORelaxed.doRead
    SyncFIFORelaxed.doutBits s l

theorem append_getD_length (l1 l2 : List Nat) :
    (l1 ++ l2).getD l1.length 0 = l2.headD 0 := by
  rw [List.getD_eq_getElem?_getD, List.getElem?_append_right (le_refl _),
    Nat.sub_self, List.headD_eq_head?]
  cases l2 <;> simp

theorem SyncFIFOBuffered.doRead_head_buffered {s : SyncFIFOBuffered} {i : FifoInput}
    (hr : s.doRead i = true) :
    s.contents ≠ [] ∧ s.dout = s.contents.headD 0 := by
  have hR : s.readable = true := by
    simp only [doRead, Bool.and_eq_true] at hr
    exact hr.1
  exact SyncFIFOBuffered.dout_head_buffered hR

theorem SyncFIFORelaxed.doRead_head_relaxed {s : SyncFIFORelaxed} {i : FifoInput}
    (hr : s.doRead i = true) :
    s.contents ≠ [] ∧ s.doutBits = s.contents.headD 0 := by
  have hR : s.readable = true := by
    simp only [doRead, Bool.and_eq_true] at hr
    exact hr.1
  exact SyncFIFORelaxed.doutBits_head hR

/-- Buffered trace refinement, from the generic theorem. -/
theorem SyncFIFOBuffered.trace_buffered {depth : Nat} (hd : 0 < depth)
    (l : List FifoInput) (hnf : ∀ i ∈ l, i.flush = false) :
    (SyncFIFOBuffered.init depth).runCommits l
      = (SyncFIFOBuffered.init depth).runPops l
        ++ ((SyncFIFOBuffered.init depth).run l).contents := by
  have h0 : (SyncFIFOBuffered.init depth).contents = [] := by
    simp [SyncFIFOBuffered.init, contents, SyncFIFOClassic.init,
      SyncFIFO.init, SyncFIFO.contents, ringSlice]
  have h := trace_generic SyncFIFOBuffered.step SyncFIFOBuffered.doWrite
    SyncFIFOBuffered.doRead SyncFIFOBuffered.contents SyncFIFOBuffered.dout
    (fun s => s.fifo.fifo.Inv)
    (fun s i hs _ => SyncFIFOBuffered.step_inv_buffered hs i)
    (fun s i hs hf => SyncFIFOBuffered.contents_step hs i hf)
    (fun s i hs hr => SyncFIFOBuffered.doRead_head_buffered hr)
    l (SyncFIFOBuffered.init depth)
    (SyncFIFOBuffered.reachable_inv_buffered hd SyncFIFOBuffered.Reachable.refl) hnf
  rw [h0] at h
  exact h

/-- Relaxed trace refinement, from the generic theorem. -/
theorem SyncFIFORelaxed.trace_relaxed {depth : Nat} (hd : 0 < depth)
    (l : List FifoInput) (hnf : ∀ i ∈ l, i.flush = false) :
    (SyncFIFORelaxed.init depth).runCommits l
      = (SyncFIFORelaxed.init depth).runPops l
        ++ ((SyncFIFORelaxed.init depth).run l).contents := by
  have h0 : (SyncFIFORelaxed.init depth).contents = [] := by
    simp [SyncFIFORelaxed.init, contents, SyncFIFO.init, SyncFIFO.contents,
      ringSlice]
  have h := trace_generic SyncFIFORelaxed.step SyncFIFORelaxed.doWrite
    SyncFIFORelaxed.doRead SyncFIFORelaxed.contents SyncFIFORelaxed.doutBits
    SyncFIFORelaxed.Inv
    (fun s i hs hf => (SyncFIFORelaxed.step_good hs i hf).1)
    (fun s i hs hf => (SyncFIFORelaxed.step_good hs i hf).2)
    (fun s i hs hr => SyncFIFORelaxed.doRead_head_relaxed hr)
    l (SyncFIFORelaxed.init depth) (SyncFIFORelaxed.init_inv_relaxed hd) hnf
  rw [h0] at h
  exact h

/-- Reachability along a run. -/
theorem SyncFIFO.run_reachable (depth : Nat) (l : List FifoInput) :
    SyncFIFO.Reachable depth ((SyncFIFO.init depth).run l) := by
  have hgen : ∀ (l : List FifoInput) (s : SyncFIFO),
      SyncFIFO.Reachable depth s → SyncFIFO.Reachable depth (s.run l) := by
    intro l
    induction l with
    | nil => intro s hs; exact hs
    | cons i l ih =>
      intro s hs
      exact ih (s.step i) (SyncFIFO.Reachable.tail i hs)
  exact hgen l _ SyncFIFO.Reachable.refl

/-- Per-tick inputs of the wishbone-to-CSR bridge: the Wishbone slave
inputs (`cyc_i`, `stb_i`, `we_i`, `adr_i`, `dat_i`) and the CSR read-data
return `d_i`. -/
structure W2CInput where
  cyc_i : Bool
  stb_i : Bool
  we_i : Bool
  adr_i : Nat
  dat_i : Nat
  d_i : Nat
deriving DecidableEq, Repr

/-- State of `wishbone2csr.Inst`: the registered outputs plus the timeline
position `t`.  Modelled from the spec: `migen.corelogic.timeline.Inst` is
not under src/; per the spec it drives a fixed three-step timed sequence
gated on the bus cycle being active, so `t` counts ticks while the trigger
(`cyc_i & stb_i`) holds and rests at zero otherwise, and the step-`k`
statement list fires on the tick where `t` reaches `k`. -/
structure W2CState where
  t : Nat
  we_o : Bool
  ack_o : Bool
  a_o : Nat
  d_o : Nat
  dat_o : Nat
deriving DecidableEq, Repr

/-- One tick of the bridge: the unconditional sync list of `get_fragment`
(`we_o` defaults to 0, `d_o` registers `dat_i`, `a_o` registers
`adr_i[:14]`, `dat_o` registers `d_i`), then the timeline statements, which
come later in the fragment sum and therefore override the defaults at their
steps. -/
def W2CState.step (s : W2CState) (i : W2CInput) : W2CState :=
  let trigger := i.cyc_i && i.stb_i
  let t1 := if trigger then s.t + 1 else 0
  { t := t1
    we_o := if trigger && (t1 == 1) then i.we_i else false
    ack_o := if trigger && (t1 == 2) then true
      else if trigger && (t1 == 3) then false
      else s.ack_o
    a_o := i.adr_i % 2 ^ 14
    d_o := i.dat_i
    dat_o := i.d_i }

def W2CState.init : W2CState := ⟨0, false, false, 0, 0, 0⟩

/-- The data-shape argument accepted by every FIFO constructor: a flat bit
width, or a `Record` layout given as named field widths. -/
inductive WidthOrLayout
  | flat (width : Nat)
  | layout (fields : List (String × Nat))
deriving DecidableEq, Repr

/-- Modelled from the spec: `layout_len` (migen.genlib.record, not under
src/) — the total width of a structured layout is the sum of its field
widths. -/
def layout_len (fields : List (String × Nat)) : Nat :=
  (fields.map Prod.snd).sum

/-- Embeds `_FIFOInterface.__init__` (fifo.py lines 52-69): it creates the
handshake signals, picks flat or `Record` data ports, and computes `width`.
The body contains no validation of `depth` and raises nothing; note there is
no separate declared width for a layout to mismatch against —
`width_or_layout` is one argument carrying either.  The result is the
`(width, depth)` configuration the constructor proceeds with. -/
def fifoInterfaceInit (width_or_layout : WidthOrLayout) (depth : Nat) :
    Except String (Nat × Nat) :=
  match width_or_layout with
  | .flat w => .ok (w, depth)
  | .layout l => .ok (layout_len l, depth)

/-- Embeds the validation performed by `SyncFIFO.__init__` (fifo.py lines
87-138) before any state-transition logic is generated: it calls
`_FIFOInterface.__init__` and then immediately starts emitting comb/sync
statements; no depth or width check appears.  Any rejection of `depth = 0`
could only come from the out-of-scope substrate (`Signal(max=0)` for the
pointers), which the spec's substrate interface does not describe as
validating. -/
def syncFIFOInitChecks (width_or_layout : WidthOrLayout) (depth : Nat) :
    Except String (Nat × Nat) :=
  fifoInterfaceInit width_or_layout depth

/-- Embeds the validation performed by `AsyncFIFO.__init__` (fifo.py lines
259-309) before generating logic: again only `_FIFOInterface.__init__` plus
the substrate call `log2_int(depth, True)`; the fifo.py code itself checks
nothing. -/
def asyncFIFOInitChecks (width_or_layout : WidthOrLayout) (depth : Nat) :
    Except String (Nat × Nat) :=
  fifoInterfaceInit width_or_layout depth

theorem incWrap_eq_mod (modulo s : Nat) (hm : 0 < modulo) (hs : s < modulo) :
    incWrap modulo s = (s + 1) % modulo := by
  unfold incWrap
  rcases Nat.lt_or_ge (s + 1) modulo with h1 | h1
  · rw [if_neg (by omega), Nat.mod_eq_of_lt h1]
  · have h2 : s = modulo - 1 := by omega
    rw [if_pos h2, h2, Nat.sub_add_cancel hm, Nat.mod_self]

theorem SyncFIFO.reachable_depth_core {depth : Nat} {s : SyncFIFO}
    (h : SyncFIFO.Reachable depth s) : s.depth = depth := by
  induction h with
  | refl => rfl
  | tail i hs ih => simpa [SyncFIFO.step] using ih

theorem SyncFIFORelaxed.reachable_depth_relaxed {depth : Nat} {s : SyncFIFORelaxed}
    (h : SyncFIFORelaxed.Reachable depth s) : s.fifo.depth = depth := by
  induction h with
  | refl => rfl
  | tail i hs ih => simpa [SyncFIFORelaxed.step, SyncFIFO.step] using ih

theorem SyncFIFO.contents_eq_nil_iff (s : SyncFIFO) :
    s.contents = [] ↔ s.level = 0 := by
  constructor
  · intro h
    have h2 := congrArg List.length h
    simpa [SyncFIFO.contents_length] using h2
  · exact SyncFIFO.contents_nil

/-- Observable projection of the relaxed state: every register except the
value parked in `buff` while its valid bit is clear (with `buff_readable`
low the bypass register holds no element), made explicit by including the
abstract contents. -/
def SyncFIFORelaxed.obs (s : SyncFIFORelaxed) :
    SyncFIFO × Nat × Bool × Bool × List Nat :=
  (s.fifo, s.dout, s.doutReadable, s.buffReadable, s.contents)

/-- Claim C4 (counterexample): the code's full detection does not match the
claimed "equal top bit with differing second-top bit" pattern.  With 3-bit
Gray pointers p = 0b100 (= grayEncode 7) and c = 0b010 (= grayEncode 3) the
code reports not-writable (full: both top bits differ, low bit equal), yet
the claimed pattern does not hold there (the top bits are not equal). -/
theorem C4_full_pattern_counterexample :
    asyncWritable 2 4 2 = false ∧ ¬ specFullPattern 2 4 2 := by
  decide

/-- Claim C4 (amended): the write side is not writable (full) exactly when
the top bits of the two Gray pointers DIFFER and the second-top bits DIFFER
while the remaining low bits are equal (for 2-bit pointers there are no low
bits and only the two bit comparisons remain); equivalently, on every
reachable state, exactly when the produce count has advanced `depth` slots
past the resynchronized consume count. -/
theorem C4_full_pattern_amended :
    (∀ (n p c : Nat), 1 ≤ n →
      (asyncWritable n p c = false
        ↔ (p.testBit n ≠ c.testBit n
            ∧ p.testBit (n - 1) ≠ c.testBit (n - 1)
            ∧ p % 2 ^ (n - 1) = c % 2 ^ (n - 1))))
    ∧ (∀ (n : Nat), 1 ≤ n → ∀ s : AsyncFIFO, AsyncFIFO.Reachable n s →
        (s.writable = false
          ↔ s.produce = s.consumeShadow2 + 2 ^ s.depthBits)) := by
  constructor
  · intro n p c hn
    by_cases h1 : n = 1
    · simp [asyncWritable, h1, Nat.mod_one]
    · simp [asyncWritable, h1]
      tauto
  · intro n hn s hs
    exact AsyncFIFO.notWritable_iff (AsyncFIFO.reachable_inv_async hn hs)

theorem C4_full_pattern_amended_witness :
    (asyncWritable 2 4 2 = false
      ↔ (Nat.testBit 4 2 ≠ Nat.testBit 2 2
          ∧ Nat.testBit 4 1 ≠ Nat.testBit 2 1
          ∧ 4 % 2 ^ 1 = 2 % 2 ^ 1))
    ∧ ((AsyncFIFO.init 1).writable = false
        ↔ (AsyncFIFO.init 1).produce
            = (AsyncFIFO.init 1).consumeShadow2 + 2 ^ (AsyncFIFO.init 1).depthBits) :=
  ⟨C4_full_pattern_amended.1 2 4 2 (by decide),
   C4_full_pattern_amended.2 1 (by decide) (AsyncFIFO.init 1)
     AsyncFIFO.Reachable.refl⟩

/-- Claim C7 (counterexample): constructing a FIFO with depth zero is not
rejected by the constructors in this module: neither
`_FIFOInterface.__init__` nor `SyncFIFO.__init__` nor `AsyncFIFO.__init__`
contains any validation, so the depth-0 configuration passes straight
through (any failure would have to come from the out-of-scope substrate). -/
theorem C7_construction_counterexample :
    (syncFIFOInitChecks (.flat 8) 0).isOk = true
      ∧ (asyncFIFOInitChecks (.flat 8) 0).isOk = true :=
  ⟨rfl, rfl⟩

/-- Claim C7 (amended): the FIFO constructors perform no construction-time
validation at all: every width-or-layout and every depth, including zero,
is accepted by the code in this module, and a mismatch between a structured
layout and a separately declared width cannot even be expressed, because
`width_or_layout` is a single argument carrying either a width or a layout
(the layout's width is computed as the sum of its field widths). -/
theorem C7_construction_amended :
    ∀ (wol : WidthOrLayout) (depth : Nat),
      (fifoInterfaceInit wol depth).isOk = true
      ∧ (syncFIFOInitChecks wol depth).isOk = true
      ∧ (asyncFIFOInitChecks wol depth).isOk = true := by
  intro wol depth
  cases wol <;> exact ⟨rfl, rfl, rfl⟩

/-- Claim C8: the two branches of the pointer-increment helper `_inc` are
semantically equivalent: on every in-range pointer `s < depth`, when `depth`
equals `2` to the signal width both the bit-truncating increment and the
explicit compare-and-reset increment compute `(s+1) mod depth` (and `_inc`
takes the truncating branch); in general `_inc` always computes
`(s+1) mod modulo`, so the branch choice is only an optimization. -/
theorem C8_inc_equivalence :
    (∀ (w s depth : Nat), depth = 2 ^ w → s < depth →
      incTrunc w s = (s + 1) % depth
      ∧ incWrap depth s = (s + 1) % depth
      ∧ inc w depth s = incTrunc w s)
    ∧ (∀ (w modulo s : Nat), 0 < modulo → s < modulo →
        inc w modulo s = (s + 1) % modulo) := by
  constructor
  · intro w s depth hdep hs
    have hpos : 0 < depth := by
      rw [hdep]
      exact Nat.pos_pow_of_pos _ (by norm_num)
    refine ⟨?_, incWrap_eq_mod depth s hpos hs, ?_⟩
    · rw [hdep]
      rfl
    · unfold inc
      rw [if_pos hdep]
  · exact fun w modulo s hm hs => inc_eq_mod w modulo s hm hs

theorem C8_inc_equivalence_witness :
    (incTrunc 2 3 = (3 + 1) % 4 ∧ incWrap 4 3 = (3 + 1) % 4
      ∧ inc 2 4 3 = incTrunc 2 3)
    ∧ inc 3 5 4 = (4 + 1) % 5 :=
  ⟨C8_inc_equivalence.1 2 3 4 (by decide) (by decide),
   C8_inc_equivalence.2 3 5 4 (by decide) (by decide)⟩

/-- Claim C9: while the Wishbone cycle is active (`cyc_i ∧ stb_i`), the
bridge's timeline advances and drives the fixed three-step sequence:
on step 1 it asserts `we_o` exactly when the transaction is a write
(`we_i`), on step 2 it asserts `ack_o`, on step 3 it deasserts `ack_o`
(holding it otherwise); when the cycle is not active, no step fires:
`we_o` falls back to its default 0, `ack_o` holds, the timeline rests. -/
theorem C9_wishbone_timeline (s : W2CState) (i : W2CInput) :
    ((i.cyc_i && i.stb_i) = true →
      (s.step i).t = s.t + 1
      ∧ ((s.step i).t = 1 → (s.step i).we_o = i.we_i)
      ∧ ((s.step i).t ≠ 1 → (s.step i).we_o = false)
      ∧ ((s.step i).t = 2 → (s.step i).ack_o = true)
      ∧ ((s.step i).t = 3 → (s.step i).ack_o = false)
      ∧ ((s.step i).t ≠ 2 → (s.step i).t ≠ 3 → (s.step i).ack_o = s.ack_o))
    ∧ ((i.cyc_i && i.stb_i) = false →
        (s.step i).t = 0 ∧ (s.step i).we_o = false
          ∧ (s.step i).ack_o = s.ack_o) := by
  constructor
  · intro htr
    refine ⟨by simp [W2CState.step, htr], ?_, ?_, ?_, ?_, ?_⟩
    · intro h
      simp only [W2CState.step, htr, if_true] at h ⊢
      simp [h]
    · intro h
      simp only [W2CState.step, htr, if_true] at h ⊢
      simp [h]
      intro h0
      exfalso
      omega
    · intro h
      simp only [W2CState.step, htr, if_true] at h ⊢
      simp [h]
    · intro h
      simp only [W2CState.step, htr, if_true] at h ⊢
      simp [h]
    · intro h2 h3
      simp only [W2CState.step, htr, if_true] at h2 h3 ⊢
      simp [show s.t ≠ 1 by omega, show s.t ≠ 2 by omega]
  · intro htr
    refine ⟨by simp [W2CState.step, htr], by simp [W2CState.step, htr],
      by simp [W2CState.step, htr]⟩

theorem C9_wishbone_timeline_witness :
    (W2CState.init.step ⟨true, true, true, 3, 4, 5⟩).t = W2CState.init.t + 1
    ∧ (W2CState.init.step ⟨true, true, true, 3, 4, 5⟩).we_o
        = (⟨true, true, true, 3, 4, 5⟩ : W2CInput).we_i
    ∧ ((W2CState.init.step ⟨false, true, true, 3, 4, 5⟩).t = 0
        ∧ (W2CState.init.step ⟨false, true, true, 3, 4, 5⟩).we_o = false
        ∧ (W2CState.init.step ⟨false, true, true, 3, 4, 5⟩).ack_o
            = W2CState.init.ack_o) :=
  ⟨((C9_wishbone_timeline W2CState.init ⟨true, true, true, 3, 4, 5⟩).1
      (by decide)).1,
   ((C9_wishbone_timeline W2CState.init ⟨true, true, true, 3, 4, 5⟩).1
      (by decide)).2.1 (by decide),
   (C9_wishbone_timeline W2CState.init ⟨false, true, true, 3, 4, 5⟩).2
      (by decide)⟩

/-- Claim C10: on every tick the bridge registers `a_o` to exactly the low
14 bits of the Wishbone address `adr_i` (`adr_i[:14]`), silently discarding
all higher bits, while unconditionally registering `d_o` from `dat_i` and
`dat_o` from the CSR `d_i`; concretely, address `2^14 + 21` lands as 21. -/
theorem C10_wishbone_address_truncation :
    (∀ (s : W2CState) (i : W2CInput),
      (s.step i).a_o = i.adr_i % 2 ^ 14
      ∧ (s.step i).d_o = i.dat_i
      ∧ (s.step i).dat_o = i.d_i)
    ∧ (W2CState.init.step ⟨false, false, false, 2 ^ 14 + 21, 0, 0⟩).a_o
        = 21 := by
  refine ⟨fun s i => ⟨rfl, rfl, rfl⟩, by decide⟩

/-- Scenario A write phase: we held with values 10, 20, 30, 40. -/
def scenarioAWrites : List FifoInput :=
  [⟨10, true, false, false⟩, ⟨20, true, false, false⟩,
   ⟨30, true, false, false⟩, ⟨40, true, false, false⟩]

/-- Scenario A read phase: four read-acknowledge ticks. -/
def scenarioAReads : List FifoInput :=
  [⟨0, false, true, false⟩, ⟨0, false, true, false⟩,
   ⟨0, false, true, false⟩, ⟨0, false, true, false⟩]

/-- Claim C1: for the core `SyncFIFO`, for every depth and every flush-free
tick-by-tick input sequence, the committed writes equal the delivered reads
followed by what is still queued — so the values delivered by committed
reads are exactly the committed writes, in order (strict FIFO).  Concretely
at depth 4: writing 10,20,30,40 with `we` held commits all four writes,
`writable` is false after the fourth, and four subsequent reads deliver
10,20,30,40 in order with `readable` false after the last. -/
theorem C1_syncfifo_strict_order (depth : Nat) (hd : 0 < depth)
    (l : List FifoInput) (hnf : ∀ i ∈ l, i.flush = false) :
    (SyncFIFO.runCommits (SyncFIFO.init depth) l
        = SyncFIFO.runOutputs (SyncFIFO.init depth) l
          ++ ((SyncFIFO.init depth).run l).contents)
    ∧ SyncFIFO.runCommits (SyncFIFO.init 4) scenarioAWrites = [10, 20, 30, 40]
    ∧ ((SyncFIFO.init 4).run scenarioAWrites).writable = false
    ∧ SyncFIFO.runOutputs ((SyncFIFO.init 4).run scenarioAWrites)
        scenarioAReads = [10, 20, 30, 40]
    ∧ (((SyncFIFO.init 4).run scenarioAWrites).run scenarioAReads).readable
        = false := by
  refine ⟨?_, by decide, by decide, by decide, by decide⟩
  have hInv : (SyncFIFO.init depth).Inv :=
    SyncFIFO.reachable_inv_core hd SyncFIFO.Reachable.refl
  have h := SyncFIFO.trace_core hInv l hnf
  have h0 : (SyncFIFO.init depth).contents = [] := by
    simp [SyncFIFO.init, SyncFIFO.contents, ringSlice]
  rw [h0] at h
  simpa using h

theorem C1_syncfifo_strict_order_witness :
    SyncFIFO.runCommits (SyncFIFO.init 3) [⟨7, true, false, false⟩]
      = SyncFIFO.runOutputs (SyncFIFO.init 3) [⟨7, true, false, false⟩]
        ++ ((SyncFIFO.init 3).run [⟨7, true, false, false⟩]).contents :=
  (C1_syncfifo_strict_order 3 (by decide) [⟨7, true, false, false⟩]
    (by decide)).1

/-- Claim C3: in every reachable state of `SyncFIFO`, `level ≤ depth`
(`0 ≤ level` holds by the `Nat` carrier) and `level` counts the
committed-but-unread elements; along any flush-free run from an empty state
the final `level` is the number of committed writes minus the number of
committed reads; a flush tick resets `level` to 0 with nothing queued; and
in every reachable state of `SyncFIFORelaxed` the reported level satisfies
`level ≤ depth + 1`. -/
theorem C3_level_invariant :
    (∀ (depth : Nat), 0 < depth → ∀ s : SyncFIFO,
      SyncFIFO.Reachable depth s →
        s.level ≤ depth ∧ s.level = s.contents.length)
    ∧ (∀ (s : SyncFIFO), s.Inv → s.contents = [] →
        ∀ l, (∀ i ∈ l, i.flush = false) →
          (SyncFIFO.runOutputs s l).length ≤ (SyncFIFO.runCommits s l).length
          ∧ (s.run l).level
              = (SyncFIFO.runCommits s l).length
                - (SyncFIFO.runOutputs s l).length)
    ∧ (∀ (s : SyncFIFO) (i : FifoInput), i.flush = true →
        (s.step i).level = 0 ∧ (s.step i).contents = [])
    ∧ (∀ (depth : Nat), 0 < depth → ∀ s : SyncFIFORelaxed,
        SyncFIFORelaxed.Reachable depth s → s.level ≤ depth + 1) := by
  refine ⟨?_, ?_, ?_, ?_⟩
  · intro depth hd s hs
    have hInv := SyncFIFO.reachable_inv_core hd hs
    have hdep := SyncFIFO.reachable_depth_core hs
    exact ⟨hdep ▸ hInv.levelLe, (SyncFIFO.contents_length s).symm⟩
  · intro s hInv h0 l hnf
    have h := SyncFIFO.trace_core hInv l hnf
    rw [h0, List.nil_append] at h
    have hlen := congrArg List.length h
    rw [List.length_append] at hlen
    have hcl := SyncFIFO.contents_length (s.run l)
    omega
  · intro s i hf
    refine ⟨?_, SyncFIFO.contents_step_flush hf⟩
    simp [SyncFIFO.step, hf]
  · intro depth hd s hs
    have hInv := SyncFIFORelaxed.reachable_inv_relaxed hd hs
    have hdep := SyncFIFORelaxed.reachable_depth_relaxed hs
    have hl := hInv.inner.levelLe
    rw [hdep] at hl
    rw [SyncFIFORelaxed.level]
    split <;> omega

theorem C3_level_invariant_witness :
    (((SyncFIFO.init 2).step ⟨9, true, false, false⟩).level ≤ 2
      ∧ ((SyncFIFO.init 2).step ⟨9, true, false, false⟩).level
        = ((SyncFIFO.init 2).step ⟨9, true, false, false⟩).contents.length)
    ∧ ((SyncFIFO.runOutputs (SyncFIFO.init 2) [⟨9, true, false, false⟩]).length
        ≤ (SyncFIFO.runCommits (SyncFIFO.init 2) [⟨9, true, false, false⟩]).length)
    ∧ ((SyncFIFO.init 2).step ⟨0, false, false, true⟩).level = 0
    ∧ ((SyncFIFORelaxed.init 2).step ⟨9, true, false, false⟩).level ≤ 2 + 1 :=
  ⟨C3_level_invariant.1 2 (by decide) _
      (SyncFIFO.Reachable.tail _ SyncFIFO.Reachable.refl),
   (C3_level_invariant.2.1 (SyncFIFO.init 2)
      (SyncFIFO.reachable_inv_core (by decide) SyncFIFO.Reachable.refl) (by decide)
      [⟨9, true, false, false⟩] (by decide)).1,
   (C3_level_invariant.2.2.1 (SyncFIFO.init 2) ⟨0, false, false, true⟩
      (by decide)).1,
   C3_level_invariant.2.2.2 2 (by decide) _
      (SyncFIFORelaxed.Reachable.tail _ SyncFIFORelaxed.Reachable.refl)⟩

/-- Claim C5: `do_shunt` holds exactly when the caller asserts `we` while
the inner `SyncFIFO` is empty (inner `readable` false, i.e. nothing queued)
and the outer stage is not stalled holding unread data
(`¬(readable ∧ ¬re)`); a shunted write is stored into the bypass cell
`buff` (with its valid bit set) and is never written into the inner FIFO —
the inner `we` is masked by `do_shunt`, so the inner storage array is
untouched; and the reported level always equals the inner level plus the
bypass occupancy bit `buff_readable`. -/
theorem C5_relaxed_shunt :
    (∀ (s : SyncFIFORelaxed) (i : FifoInput),
      (s.doShunt i = true
        ↔ (i.we = true ∧ s.fifo.contents = []
            ∧ ¬(s.readable = true ∧ i.re = false))))
    ∧ (∀ (s : SyncFIFORelaxed) (i : FifoInput), i.flush = false →
        s.doShunt i = true →
        (s.step i).buff = i.din ∧ (s.step i).buffReadable = true)
    ∧ (∀ (s : SyncFIFORelaxed) (i : FifoInput), s.doShunt i = true →
        (s.step i).fifo
            = s.fifo.step { i with we := false, re := s.fifoRe i }
          ∧ (s.step i).fifo.mem = s.fifo.mem)
    ∧ (∀ s : SyncFIFORelaxed,
        s.level = s.fifo.level + (if s.buffReadable then 1 else 0)) := by
  refine ⟨?_, ?_, ?_, fun s => rfl⟩
  · intro s i
    rw [SyncFIFORelaxed.doShunt, SyncFIFO.contents_eq_nil_iff]
    constructor
    · intro h
      simp only [Bool.and_eq_true, Bool.not_eq_true'] at h
      obtain ⟨⟨hwe, hrd⟩, hst⟩ := h
      refine ⟨hwe, ?_, ?_⟩
      · simpa [SyncFIFO.readable] using hrd
      · intro hcon
        rw [hcon.1, hcon.2] at hst
        simp at hst
    · rintro ⟨hwe, hlv, hst⟩
      have hrd : s.fifo.readable = false := by
        simp [SyncFIFO.readable, hlv]
      rw [hwe, hrd]
      simp only [Bool.not_false, Bool.and_true, Bool.true_and,
        Bool.not_eq_true']
      cases hR : s.readable <;> cases hre : i.re <;> simp_all
  · intro s i hf h
    constructor <;> simp [SyncFIFORelaxed.step, h, hf]
  · intro s i h
    have hwe2 : s.fifoWe i = false := by
      simp [SyncFIFORelaxed.fifoWe, h]
    constructor
    · simp only [SyncFIFORelaxed.step, hwe2]
    · have hdw : s.fifo.doWrite { i with we := false, re := s.fifoRe i }
          = false := by
        simp [SyncFIFO.doWrite]
      simp only [SyncFIFORelaxed.step, hwe2]
      simp [SyncFIFO.step, hdw]

theorem C5_relaxed_shunt_witness :
    ((SyncFIFORelaxed.init 2).doShunt ⟨6, true, false, false⟩ = true
      ↔ ((true : Bool) = true ∧ (SyncFIFORelaxed.init 2).fifo.contents = []
          ∧ ¬((SyncFIFORelaxed.init 2).readable = true
              ∧ (false : Bool) = false)))
    ∧ (((SyncFIFORelaxed.init 2).step ⟨6, true, false, false⟩).buff = 6
        ∧ ((SyncFIFORelaxed.init 2).step
            ⟨6, true, false, false⟩).buffReadable = true)
    ∧ ((SyncFIFORelaxed.init 2).step ⟨6, true, false, false⟩).fifo.mem
        = (SyncFIFORelaxed.init 2).fifo.mem :=
  ⟨C5_relaxed_shunt.1 (SyncFIFORelaxed.init 2) ⟨6, true, false, false⟩,
   C5_relaxed_shunt.2.1 (SyncFIFORelaxed.init 2) ⟨6, true, false, false⟩
     (by decide) (by decide),
   (C5_relaxed_shunt.2.2.1 (SyncFIFORelaxed.init 2) ⟨6, true, false, false⟩
     (by decide)).2⟩

/-- Claim C6: for every variant, asserting `we` on a tick where `writable`
is false, or `re` on a tick where `readable` is false, is a silent no-op:
the resulting state is the same as with the enable deasserted (for the
relaxed wrapper's read side the comparison is over the observable
projection, which carries every register, the abstract contents included,
except the value parked in the bypass register while its valid bit is
clear - no element is stored, dropped or duplicated, no pointer or level
changes, and no error is signalled anywhere). -/
theorem C6_silent_noop :
    (∀ (s : SyncFIFO) (i : FifoInput), s.writable = false →
      s.step i = s.step { i with we := false })
    ∧ (∀ (s : SyncFIFO) (i : FifoInput), s.readable = false →
        s.step i = s.step { i with re := false })
    ∧ (∀ (s : SyncFIFOClassic) (i : FifoInput), s.writable = false →
        s.step i = s.step { i with we := false })
    ∧ (∀ (s : SyncFIFOClassic) (i : FifoInput), s.readable = false →
        s.step i = s.step { i with re := false })
    ∧ (∀ (s : SyncFIFOBuffered) (i : FifoInput), s.writable = false →
        s.step i = s.step { i with we := false })
    ∧ (∀ (s : SyncFIFOBuffered) (i : FifoInput), s.readable = false →
        s.step i = s.step { i with re := false })
    ∧ (∀ (s : SyncFIFORelaxed) (i : FifoInput), s.Inv →
        s.writable = false → s.step i = s.step { i with we := false })
    ∧ (∀ (s : SyncFIFORelaxed) (i : FifoInput), s.readable = false →
        (s.step i).obs = (s.step { i with re := false }).obs)
    ∧ (∀ (s : AsyncFIFO) (din : Nat), s.writable = false →
        s.writeStep true din = s.writeStep false din)
    ∧ (∀ (s : AsyncFIFO), s.readable = false →
        s.readStep true = s.readStep false) := by
  have hsync_we : ∀ (s : SyncFIFO) (i : FifoInput), s.writable = false →
      s.step i = s.step { i with we := false } := by
    intro s i h
    simp [SyncFIFO.step, SyncFIFO.doWrite, SyncFIFO.doRead, h]
  have hsync_re : ∀ (s : SyncFIFO) (i : FifoInput), s.readable = false →
      s.step i = s.step { i with re := false } := by
    intro s i h
    simp [SyncFIFO.step, SyncFIFO.doWrite, SyncFIFO.doRead, h]
  have hclassic_we : ∀ (s : SyncFIFOClassic) (i : FifoInput),
      s.writable = false → s.step i = s.step { i with we := false } := by
    intro s i h
    have h2 := hsync_we s.fifo i h
    simp [SyncFIFOClassic.step, h2]
  have hclassic_re : ∀ (s : SyncFIFOClassic) (i : FifoInput),
      s.readable = false → s.step i = s.step { i with re := false } := by
    intro s i h
    have h2 := hsync_re s.fifo i h
    have h3 : s.fifo.readable = false := h
    simp [SyncFIFOClassic.step, h2, h3]
  refine ⟨hsync_we, hsync_re, hclassic_we, hclassic_re, ?_, ?_, ?_, ?_, ?_, ?_⟩
  · intro s i h
    have hre : s.fifoRe { i with we := false } = s.fifoRe i := rfl
    have h2 := hclassic_we s.fifo { i with re := s.fifoRe i } h
    simp only [SyncFIFOBuffered.step, hre, h2]
  · intro s i h
    have hre1 : s.fifoRe i = s.fifo.readable := by
      simp [SyncFIFOBuffered.fifoRe, h]
    have hre2 : s.fifoRe { i with re := false } = s.fifo.readable := by
      simp [SyncFIFOBuffered.fifoRe, h]
    simp only [SyncFIFOBuffered.step, hre1, hre2, h]
    by_cases hcr : s.fifo.readable = true <;> by_cases hre : i.re = true <;>
      simp [hcr, hre, h]
  · intro s i hInv h
    have hlv : s.fifo.level = s.fifo.depth := by
      simpa [SyncFIFORelaxed.writable, SyncFIFO.writable] using h
    have hcr : s.fifo.readable = true := by
      have hdp := hInv.inner.depthPos
      simp [SyncFIFO.readable]
      omega
    have hsh1 : s.doShunt i = false := by
      simp [SyncFIFORelaxed.doShunt, hcr]
    have hsh2 : s.doShunt { i with we := false } = false := by
      simp [SyncFIFORelaxed.doShunt, hcr]
    have hfre : s.fifoRe { i with we := false } = s.fifoRe i := rfl
    have hwe1 : s.fifoWe i = i.we := by
      simp [SyncFIFORelaxed.fifoWe, hsh1]
    have hwe2 : s.fifoWe { i with we := false } = false := by
      simp [SyncFIFORelaxed.fifoWe]
    have hstep2 := hsync_we s.fifo { i with we := i.we, re := s.fifoRe i } h
    simp only [SyncFIFORelaxed.step, hsh1, hsh2, hfre, hwe1, hwe2]
    rw [hstep2]
  · intro s i h
    have hb : s.buffReadable = false := by
      cases hbb : s.buffReadable
      · rfl
      · rw [SyncFIFORelaxed.readable, hbb] at h
        simp at h
    have hdr : s.doutReadable = false := by
      cases hdd : s.doutReadable
      · rfl
      · rw [SyncFIFORelaxed.readable, hdd] at h
        simp at h
    have hfr1 : s.fifoRe i = true := by
      simp [SyncFIFORelaxed.fifoRe, h]
    have hfr2 : s.fifoRe { i with re := false } = true := by
      simp [SyncFIFORelaxed.fifoRe, h]
    have hsh : ∀ (j : FifoInput), j.we = i.we → j.re = i.re ∨ j.re = false →
        s.doShunt j = (i.we && !s.fifo.readable) := by
      intro j hjw _
      simp [SyncFIFORelaxed.doShunt, h, hjw]
    have hsh1 := hsh i rfl (Or.inl rfl)
    have hsh2 := hsh { i with re := false } rfl (Or.inr rfl)
    have hwe1 : s.fifoWe i = s.fifoWe { i with re := false } := by
      simp [SyncFIFORelaxed.fifoWe, hsh1, hsh2]
    simp only [SyncFIFORelaxed.obs, SyncFIFORelaxed.step,
      SyncFIFORelaxed.contents, hfr1, hfr2, hsh1, hsh2, hb, hdr, hwe1]
    by_cases hwr : (i.we && !s.fifo.readable) = true <;>
      by_cases hre : i.re = true <;> simp [hwr, hre, hb, hdr]
  · intro s din h
    simp [AsyncFIFO.writeStep, h]
  · intro s h
    simp [AsyncFIFO.readStep, h]

theorem C6_silent_noop_witness :
    ((SyncFIFO.init 1).step ⟨3, true, false, false⟩).step ⟨4, true, false, false⟩
        = ((SyncFIFO.init 1).step ⟨3, true, false, false⟩).step
            ⟨4, false, false, false⟩
    ∧ (SyncFIFO.init 2).step ⟨0, false, true, false⟩
        = (SyncFIFO.init 2).step ⟨0, false, false, false⟩
    ∧ (SyncFIFOClassic.init 2).step ⟨0, false, true, false⟩
        = (SyncFIFOClassic.init 2).step ⟨0, false, false, false⟩
    ∧ (SyncFIFOBuffered.init 2).step ⟨0, false, true, false⟩
        = (SyncFIFOBuffered.init 2).step ⟨0, false, false, false⟩
    ∧ ((SyncFIFORelaxed.init 2).step ⟨0, false, true, false⟩).obs
        = ((SyncFIFORelaxed.init 2).step ⟨0, false, false, false⟩).obs
    ∧ (AsyncFIFO.init 1).readStep true = (AsyncFIFO.init 1).readStep false := by
  refine ⟨?_, ?_, ?_, ?_, ?_, ?_⟩
  · exact C6_silent_noop.1 ((SyncFIFO.init 1).step ⟨3, true, false, false⟩)
      ⟨4, true, false, false⟩ (by decide)
  · exact C6_silent_noop.2.1 (SyncFIFO.init 2) ⟨0, false, true, false⟩
      (by decide)
  · exact C6_silent_noop.2.2.2.1 (SyncFIFOClassic.init 2)
      ⟨0, false, true, false⟩ (by decide)
  · exact C6_silent_noop.2.2.2.2.2.1 (SyncFIFOBuffered.init 2)
      ⟨0, false, true, false⟩ (by decide)
  · exact C6_silent_noop.2.2.2.2.2.2.2.1 (SyncFIFORelaxed.init 2)
      ⟨0, false, true, false⟩ (by decide)
  · exact C6_silent_noop.2.2.2.2.2.2.2.2.2 (AsyncFIFO.init 1) (by decide)

/-- Claim C2: first-word-fall-through fidelity.  For `SyncFIFO`,
`SyncFIFOBuffered`, `SyncFIFORelaxed` and `AsyncFIFO`, whenever `readable`
is asserted in a reachable state, the data output at that same tick already
equals the oldest committed-but-unread element: as a state property it is
the head of the abstract contents, and along any flush-free run from reset
it is the first committed element not yet delivered, read off the concrete
commit/pop logs.  `SyncFIFOClassic` is exempt from this property. -/
theorem C2_fwft_fidelity :
    (∀ (depth : Nat), 0 < depth → ∀ (s : SyncFIFO),
      SyncFIFO.Reachable depth s → s.readable = true →
        s.contents ≠ [] ∧ s.dout = s.contents.headD 0)
  ∧ (∀ (s : SyncFIFOBuffered), s.readable = true →
        s.contents ≠ [] ∧ s.dout = s.contents.headD 0)
  ∧ (∀ (s : SyncFIFORelaxed), s.readable = true →
        s.contents ≠ [] ∧ s.doutBits = s.contents.headD 0)
  ∧ (∀ (n : Nat), 1 ≤ n → ∀ (s : AsyncFIFO),
      AsyncFIFO.Reachable n s → s.readable = true →
        s.contents ≠ [] ∧ s.dout = s.contents.headD 0)
  ∧ (∀ (depth : Nat), 0 < depth → ∀ (l : List FifoInput),
      (∀ i ∈ l, i.flush = false) →
      ((SyncFIFO.init depth).run l).readable = true →
      ((SyncFIFO.init depth).run l).dout
        = ((SyncFIFO.init depth).runCommits l).getD
            ((SyncFIFO.init depth).runOutputs l).length 0)
  ∧ (∀ (depth : Nat), 0 < depth → ∀ (l : List FifoInput),
      (∀ i ∈ l, i.flush = false) →
      ((SyncFIFOBuffered.init depth).run l).readable = true →
      ((SyncFIFOBuffered.init depth).run l).dout
        = ((SyncFIFOBuffered.init depth).runCommits l).getD
            ((SyncFIFOBuffered.init depth).runPops l).length 0)
  ∧ (∀ (depth : Nat), 0 < depth → ∀ (l : List FifoInput),
      (∀ i ∈ l, i.flush = false) →
      ((SyncFIFORelaxed.init depth).run l).readable = true →
      ((SyncFIFORelaxed.init depth).run l).doutBits
        = ((SyncFIFORelaxed.init depth).runCommits l).getD
            ((SyncFIFORelaxed.init depth).runPops l).length 0) := by
  refine ⟨?_, ?_, ?_, ?_, ?_, ?_, ?_⟩
  · intro depth hd s hs hr
    exact SyncFIFO.dout_head_core (SyncFIFO.reachable_inv_core hd hs) hr
  · intro s hr
    exact SyncFIFOBuffered.dout_head_buffered hr
  · intro s hr
    exact SyncFIFORelaxed.doutBits_head hr
  · intro n hn s hs hr
    exact AsyncFIFO.dout_head_async (AsyncFIFO.reachable_inv_async hn hs) hr
  · intro depth hd l hnf hr
    have hInv0 : (SyncFIFO.init depth).Inv :=
      SyncFIFO.reachable_inv_core hd SyncFIFO.Reachable.refl
    have ht := SyncFIFO.trace_core hInv0 l hnf
    have h0 : (SyncFIFO.init depth).contents = [] := by
      simp [SyncFIFO.init, SyncFIFO.contents, ringSlice]
    rw [h0, List.nil_append] at ht
    have hInvF : ((SyncFIFO.init depth).run l).Inv :=
      SyncFIFO.reachable_inv_core hd (SyncFIFO.run_reachable depth l)
    rw [ht, append_getD_length]
    exact (SyncFIFO.dout_head_core hInvF hr).2
  · intro depth hd l hnf hr
    have ht := SyncFIFOBuffered.trace_buffered hd l hnf
    rw [ht, append_getD_length]
    exact (SyncFIFOBuffered.dout_head_buffered hr).2
  · intro depth hd l hnf hr
    have ht := SyncFIFORelaxed.trace_relaxed hd l hnf
    rw [ht, append_getD_length]
    exact (SyncFIFORelaxed.doutBits_head hr).2

/-- Concrete instantiation of C2: one small run per variant, with each
hypothesis checked by evaluation. -/
theorem C2_fwft_fidelity_witness :
    (((SyncFIFO.init 2).step ⟨5, true, false, false⟩).contents ≠ []
      ∧ ((SyncFIFO.init 2).step ⟨5, true, false, false⟩).dout
        = ((SyncFIFO.init 2).step ⟨5, true, false, false⟩).contents.headD 0)
  ∧ ((((SyncFIFOBuffered.init 2).step ⟨5, true, false, false⟩).step
        ⟨0, false, false, false⟩).contents ≠ []
      ∧ (((SyncFIFOBuffered.init 2).step ⟨5, true, false, false⟩).step
          ⟨0, false, false, false⟩).dout
        = (((SyncFIFOBuffered.init 2).step ⟨5, true, false, false⟩).step
            ⟨0, false, false, false⟩).contents.headD 0)
  ∧ (((SyncFIFORelaxed.init 2).step ⟨5, true, false, false⟩).contents ≠ []
      ∧ ((SyncFIFORelaxed.init 2).step ⟨5, true, false, false⟩).doutBits
        = ((SyncFIFORelaxed.init 2).step
            ⟨5, true, false, false⟩).contents.headD 0)
  ∧ (((((AsyncFIFO.init 1).writeStep true 7).readStep false).readStep
        false).contents ≠ []
      ∧ ((((AsyncFIFO.init 1).writeStep true 7).readStep false).readStep
          false).dout
        = ((((AsyncFIFO.init 1).writeStep true 7).readStep false).readStep
            false).contents.headD 0)
  ∧ ((SyncFIFO.init 2).run [⟨5, true, false, false⟩]).dout
      = ((SyncFIFO.init 2).runCommits [⟨5, true, false, false⟩]).getD
          ((SyncFIFO.init 2).runOutputs [⟨5, true, false, false⟩]).length 0
  ∧ ((SyncFIFOBuffered.init 2).run
        [⟨5, true, false, false⟩, ⟨0, false, false, false⟩]).dout
      = ((SyncFIFOBuffered.init 2).runCommits
          [⟨5, true, false, false⟩, ⟨0, false, false, false⟩]).getD
          ((SyncFIFOBuffered.init 2).runPops
            [⟨5, true, false, false⟩, ⟨0, false, false, false⟩]).length 0
  ∧ ((SyncFIFORelaxed.init 2).run [⟨5, true, false, false⟩]).doutBits
      = ((SyncFIFORelaxed.init 2).runCommits [⟨5, true, false, false⟩]).getD
          ((SyncFIFORelaxed.init 2).runPops
            [⟨5, true, false, false⟩]).length 0 := by
  refine ⟨?_, ?_, ?_, ?_, ?_, ?_, ?_⟩
  · exact C2_fwft_fidelity.1 2 (by decide)
      ((SyncFIFO.init 2).step ⟨5, true, false, false⟩)
      (SyncFIFO.Reachable.tail ⟨5, true, false, false⟩
        SyncFIFO.Reachable.refl) (by decide)
  · exact C2_fwft_fidelity.2.1
      (((SyncFIFOBuffered.init 2).step ⟨5, true, false, false⟩).step
        ⟨0, false, false, false⟩) (by decide)
  · exact C2_fwft_fidelity.2.2.1
      ((SyncFIFORelaxed.init 2).step ⟨5, true, false, false⟩) (by decide)
  · exact C2_fwft_fidelity.2.2.2.1 1 (by decide)
      ((((AsyncFIFO.init 1).writeStep true 7).readStep false).readStep false)
      (AsyncFIFO.Reachable.rtick false (AsyncFIFO.Reachable.rtick false
        (AsyncFIFO.Reachable.wtick true 7 AsyncFIFO.Reachable.refl)))
      (by decide)
  · exact C2_fwft_fidelity.2.2.2.2.1 2 (by decide)
      [⟨5, true, false, false⟩] (by decide) (by decide)
  · exact C2_fwft_fidelity.2.2.2.2.2.1 2 (by decide)
      [⟨5, true, false, false⟩, ⟨0, false, false, false⟩] (by decide)
      (by decide)
  · exact C2_fwft_fidelity.2.2.2.2.2.2 2 (by decide)
      [⟨5, true, false, false⟩] (by decide) (by decide)

end Migen
